import Mathlib

/-!
Shallow embedding of the `nomnemonic` Go package (`nomnemonic.go`) together
with proofs of the specification claims about it.

Go strings are modelled as byte lists (`GoStr`), since Go's `len` and
indexing are byte-based.  The external cryptographic primitives
(PBKDF2-HMAC-SHA512, scrypt, SHA-256 from `golang.org/x/crypto` and the
standard library) are opaque to this repository and are modelled as fields
of a `Crypto` structure; the structural facts the code relies on (output
lengths, bytes < 256) are collected in `Crypto.Good`.
-/

namespace Nomnemonic

/-- A Go string: a list of bytes. -/
abbrev GoStr := List Nat

/-- The error values produced by the package, one constructor per
`errors.New` / `fmt.Errorf` construction site in `nomnemonic.go`. -/
inductive Err where
  | identifierTooShort
  | passwordTooShort
  | passcodeWrongLength
  | passcodeNotNumeric (passcode : GoStr)
  | unsupportedStrength (s : Nat)
  | unrecognizedWord (w : GoStr)
  | invalidChecksum
deriving DecidableEq, Repr

/-- The external KDF / hash collaborators used by `nomnemonic.go`.
`pbkdf2Sha512 password salt iterations keyLen` models `pbkdf2.Key` with
`sha512.New`; `scryptCore password salt N r p keyLen` models the
derivation performed by `scrypt.Key` once its parameter validation has
passed; `sha256` models `sha256.Sum256` as a 32-byte digest. -/
structure Crypto where
  pbkdf2Sha512 : GoStr → GoStr → Nat → Nat → List Nat
  scryptCore : GoStr → GoStr → Nat → Nat → Nat → Nat → List Nat
  sha256 : List Nat → List Nat

/-- Go `int(^uint(0) >> 1)` on a 64-bit platform. -/
def scryptMaxInt : Nat := 2 ^ 63 - 1

/-- Parameter validation of `scrypt.Key`, modelled from
`golang.org/x/crypto/scrypt`: `N` must be `> 1` and a power of two, and
the sizes must fit the platform's `int`. -/
def scryptParamsOk (N r p : Nat) : Bool :=
  decide (1 < N) && decide (N &&& (N - 1) = 0) &&
  decide (r * p < 2 ^ 30) && decide (r ≤ scryptMaxInt / 128 / p) &&
  decide (r ≤ scryptMaxInt / 256) && decide (N ≤ scryptMaxInt / 128 / r)

/-- Go `scrypt.Key`: returns an error when parameter validation fails,
otherwise the derived key. -/
def Crypto.scrypt (c : Crypto) (password salt : GoStr) (N r p keyLen : Nat) :
    Except String (List Nat) :=
  if scryptParamsOk N r p then .ok (c.scryptCore password salt N r p keyLen)
  else .error "scrypt: invalid parameters"

/-- The structural facts about the external primitives that the Go code
relies on: the KDFs return exactly `keyLen` bytes, SHA-256 returns exactly
32 bytes, and all outputs are bytes (`< 256`). -/
structure Crypto.Good (c : Crypto) : Prop where
  pbkdf2_length : ∀ pw salt it kl, (c.pbkdf2Sha512 pw salt it kl).length = kl
  pbkdf2_lt : ∀ pw salt it kl, ∀ b ∈ c.pbkdf2Sha512 pw salt it kl, b < 256
  scrypt_length : ∀ pw salt N r p kl, (c.scryptCore pw salt N r p kl).length = kl
  scrypt_lt : ∀ pw salt N r p kl, ∀ b ∈ c.scryptCore pw salt N r p kl, b < 256
  sha256_length : ∀ m, (c.sha256 m).length = 32
  sha256_lt : ∀ m, ∀ b ∈ c.sha256 m, b < 256

/-- The `mnemonicer` struct.  The Go struct also carries the reverse map
`dict`; it is built from `words` by iterating the list in order
(`dict[w] = i`, later entries overwriting earlier ones), which
`dictLookup` reproduces on demand. -/
structure mnemonicer where
  words : List GoStr

/-- Go map lookup `m.dict[w]` of the map built by `New`: the last index
`i` with `words[i] = w`, or `none` when absent. -/
def dictLookup (ws : List GoStr) (w : GoStr) : Option Nat :=
  ws.enum.foldl (fun acc p => if p.2 = w then some p.1 else acc) none

/-- Go `New`: rejects word lists whose length is not exactly 2048. -/
def New (words : List GoStr) : Except String mnemonicer :=
  if words.length ≠ 2048 then .error "bip39 is based on 2048 words"
  else .ok ⟨words⟩

/-- Binary digits of a positive number, most significant first, as ASCII
bytes (48 = "0", 49 = "1"); accumulator-passing as usual for digit
extraction. -/
def binDigitsAux : Nat → List Nat → List Nat
  | 0, acc => acc
  | n + 1, acc => binDigitsAux ((n + 1) / 2) ((48 + (n + 1) % 2) :: acc)
decreasing_by exact Nat.div_lt_self (Nat.succ_pos n) (by decide)

/-- Go `%b` rendering of a natural number (Go renders 0 as "0"). -/
def natBin (n : Nat) : GoStr :=
  if n = 0 then [48] else binDigitsAux n []

/-- Decimal digits of a positive number, most significant first, as ASCII
bytes. -/
def decDigitsAux : Nat → List Nat → List Nat
  | 0, acc => acc
  | n + 1, acc => decDigitsAux ((n + 1) / 10) ((48 + (n + 1) % 10) :: acc)
decreasing_by exact Nat.div_lt_self (Nat.succ_pos n) (by decide)

/-- Go `%d` rendering of a natural number. -/
def natDec (n : Nat) : GoStr :=
  if n = 0 then [48] else decDigitsAux n []

/-- Go `%d` rendering of a Go int (45 = "-"). -/
def intToDec (n : Int) : GoStr :=
  if n < 0 then 45 :: natDec n.natAbs else natDec n.toNat

/-- Go `intToBin(n, bits)`: `fmt.Sprintf("%0<bits>b", n)` — binary rendering
left-padded with zeros to at least `bits` characters. -/
def intToBin (n bits : Nat) : GoStr :=
  let digits := natBin n
  List.replicate (bits - digits.length) 48 ++ digits

/-- The numeric value of a binary digit string (MSB first). -/
def binVal (s : GoStr) : Nat :=
  s.foldl (fun acc c => 2 * acc + (c - 48)) 0

/-- Whether every byte of `s` is an ASCII binary digit. -/
def allBin (s : GoStr) : Bool :=
  s.all fun c => c == 48 || c == 49

/-- Go `binToInt(n)`: `strconv.ParseInt(n, 2, 64)` with the error ignored.
For the strings the package feeds it (nonempty, all "0"/"1", 11 chars)
this is the binary value; a malformed string parses to 0, and an
overflowing one to `MaxInt64`.  (ParseInt would also accept a leading
sign, which never occurs at the call sites.) -/
def binToInt (s : GoStr) : Nat :=
  if s ≠ [] ∧ allBin s = true then min (binVal s) (2 ^ 63 - 1) else 0

/-- Go `bytesToBin`: concatenates the `%08b` rendering of each byte. -/
def bytesToBin (vals : List Nat) : GoStr :=
  vals.foldl (fun val n => val ++ intToBin n 8) []

/-- One step of `binToBytes`'s loop.  State: (flushed bytes, current
accumulator byte, bit count).  A full byte is flushed when the *next*
character arrives, exactly as in the Go loop.  `(v + 208) % 256` is Go's
`byte(v - '0')` (two's-complement wraparound); for the binary digit
characters that actually occur it is 0 or 1. -/
def binToBytesStep (st : List Nat × Nat × Nat) (v : Nat) : List Nat × Nat × Nat :=
  let fl := if st.2.2 = 8 then (st.1 ++ [st.2.1], 0, 0) else st
  (fl.1, (2 * fl.2.1 + (v + 208) % 256) % 256, fl.2.2 + 1)

/-- Go `binToBytes`: packs a bit string into bytes, MSB first; a final
partial group is shifted into the high bits of the last byte. -/
def binToBytes (bitString : GoStr) : List Nat :=
  let st := bitString.foldl binToBytesStep ([], 0, 0)
  if st.2.2 ≠ 0 then st.1 ++ [(st.2.1 * 2 ^ (8 - st.2.2)) % 256] else st.1

/-- Go `chunkSplit(s, size)`: the first `len(s)/size` consecutive chunks of
`size` characters. -/
def chunkSplit (s : GoStr) (size : Nat) : List GoStr :=
  (List.range (s.length / size)).map fun i => ((s.drop (i * size)).take size)

/-- Go `checksum(entropy, size)`: first `size` characters of the `%08b`
rendering of the first byte of the SHA-256 digest. -/
def checksum (c : Crypto) (entropy : List Nat) (size : Nat) : GoStr :=
  (intToBin ((c.sha256 entropy).headD 0) 8).take size

/-- Go `_sentenceStrengths[size]`: Go map lookup, 0 for absent keys. -/
def sentenceStrengths (n : Int) : Nat :=
  if n = 24 then 256 else if n = 21 then 224 else if n = 18 then 192
  else if n = 15 then 160 else if n = 12 then 128 else 0

/-- Go `validateStrength`: membership in the `_strengths` set. -/
def validateStrength (s : Nat) : Except Err Unit :=
  if s = 256 ∨ s = 224 ∨ s = 192 ∨ s = 160 ∨ s = 128 then .ok ()
  else .error (.unsupportedStrength s)

/-- Go `validateWordsPrecense` (name as in the source): first absent word
wins. -/
def mnemonicer.validateWordsPrecense (m : mnemonicer) : List GoStr → Except Err Unit
  | [] => .ok ()
  | w :: ws =>
    if (dictLookup m.words w).isNone then .error (.unrecognizedWord w)
    else m.validateWordsPrecense ws

/-- Go `buildBins`: validates the strength and the words, then concatenates
the 11-bit renderings of the word indices (absent words would read 0 from
the map, but presence has been validated). -/
def mnemonicer.buildBins (m : mnemonicer) (strength : Nat) (words : List GoStr) :
    Except Err GoStr :=
  match validateStrength strength with
  | .error e => .error e
  | .ok _ =>
    match m.validateWordsPrecense words with
    | .error e => .error e
    | .ok _ =>
      .ok (words.foldl
        (fun bins w => bins ++ intToBin ((dictLookup m.words w).getD 0) 11) [])

/-- An ASCII decimal digit. -/
def isGoDigit (c : Nat) : Bool := 48 ≤ c && c ≤ 57

/-- Success of `strconv.Atoi` (`ParseInt` base 10): an optional leading
sign (43 = "+", 45 = "-") followed by at least one decimal digit.  Range
overflow cannot occur at the call site (six characters). -/
def atoiOk (s : GoStr) : Bool :=
  let t := match s with
    | c :: rest => if c = 43 || c = 45 then rest else s
    | [] => []
  !t.isEmpty && t.all isGoDigit

/-- The salt literal "pwd". -/
def saltPwd : GoStr := [112, 119, 100]

/-- The salt literal "code". -/
def saltCode : GoStr := [99, 111, 100, 101]

/-- The salt literal "mnemonic". -/
def saltMnemonic : GoStr := [109, 110, 101, 109, 111, 110, 105, 99]

/-- The canonical message
`fmt.Sprintf("%s:%s|%s=%d", identifier, password, passcode, size)`
(58 = ":", 124 = "|", 61 = "="). -/
def buildInput (identifier password passcode : GoStr) (size : Int) : GoStr :=
  identifier ++ [58] ++ password ++ [124] ++ passcode ++ [61] ++ intToDec size

/-- Lines 104–125 of `Generate`: the dual-KDF entropy derivation.  The Go
code indexes `dkHead[i]` / `dkTail[i]` directly (panicking if out of
bounds); the model totalizes with default 0, and the in-bounds facts are
proved separately.  `dkTail` is `nil` when scrypt errors, exactly as in Go
where the error is discarded. -/
def deriveEntropy (c : Crypto) (identifier password passcode : GoStr) (size : Int) :
    List Nat :=
  let strength := sentenceStrengths size
  let input := buildInput identifier password passcode size
  let entropySize := strength / 8
  let salt := saltPwd ++ password ++ saltCode ++ passcode
  let dkHead := c.pbkdf2Sha512 input salt (2 ^ 18) entropySize
  let dkTail := ((c.scrypt input salt (2 ^ 18) 8 1 entropySize).toOption).getD []
  (List.range entropySize).map fun i => Nat.xor (dkHead.getD i 0) (dkTail.getD i 0)

/-- Go `Generate`: validations in source order, then entropy derivation and
word encoding.  The word array is modelled exactly as in Go: a slice of
`mnemonicSize` entries filled by index from the chunk list, with the last
entry overwritten by the word built from the leftover entropy bits and the
checksum.  (`m.words[...]` indexing is totalized with `getD`; the indices
are 11-bit values, in bounds for a 2048-word list.) -/
def Generate (c : Crypto) (m : mnemonicer) (identifier password passcode : GoStr)
    (size : Int) : Except Err (List GoStr) :=
  if identifier.length < 2 then .error .identifierTooShort
  else if password.length < 12 then .error .passwordTooShort
  else if passcode.length ≠ 6 then .error .passcodeWrongLength
  else if atoiOk passcode = false then .error (.passcodeNotNumeric passcode)
  else
    let strength := sentenceStrengths size
    match validateStrength strength with
    | .error e => .error e
    | .ok _ =>
      let entropy := deriveEntropy c identifier password passcode size
      let bins := bytesToBin entropy
      let csSize := strength / 32
      let mnemonicSize := (strength + csSize) / 11
      let pfxSize := 11 - csSize
      let wordIndexes := chunkSplit (bins.take (strength - pfxSize)) 11
      let words0 := List.replicate mnemonicSize ([] : GoStr)
      let words1 := wordIndexes.enum.foldl
        (fun ws p => ws.set p.1 (m.words.getD (binToInt p.2) [])) words0
      let cs := checksum c entropy csSize
      let pfx := bins.drop (strength - pfxSize)
      .ok (words1.set (mnemonicSize - 1) (m.words.getD (binToInt (pfx ++ cs)) []))

/-- Go `CalculateEntropy`. -/
def CalculateEntropy (c : Crypto) (m : mnemonicer) (words : List GoStr) :
    Except Err (List Nat) :=
  let strength := sentenceStrengths (words.length : Int)
  match m.buildBins strength words with
  | .error e => .error e
  | .ok bins =>
    let entropy := binToBytes (bins.take strength)
    let csSize := strength / 32
    let cs := checksum c entropy csSize
    if cs = bins.drop strength then .ok entropy
    else .error .invalidChecksum

/-- Go `GenerateSeed`. -/
def GenerateSeed (c : Crypto) (_m : mnemonicer) (sentence passphrase : GoStr) :
    Except Err (List Nat) :=
  .ok (c.pbkdf2Sha512 sentence (saltMnemonic ++ passphrase) 2048 64)

/-- Go `GenerateSeed32`. -/
def GenerateSeed32 (c : Crypto) (_m : mnemonicer) (sentence passphrase : GoStr) :
    Except Err (List Nat) :=
  .ok (c.pbkdf2Sha512 sentence (saltMnemonic ++ passphrase) 4096 32)

/-- Go `IsValid`. -/
def IsValid (c : Crypto) (m : mnemonicer) (words : List GoStr) :
    Except Err Bool :=
  let strength := sentenceStrengths (words.length : Int)
  match m.buildBins strength words with
  | .error e => .error e
  | .ok bins =>
    let entropy := binToBytes (bins.take strength)
    let csSize := strength / 32
    let cs := checksum c entropy csSize
    if cs = bins.drop strength then .ok true
    else .ok false

/-! ### Bit-string arithmetic lemmas -/

theorem binVal_foldl (t : GoStr) (acc : Nat) :
    t.foldl (fun a c => 2 * a + (c - 48)) acc = acc * 2 ^ t.length + binVal t := by
  induction t generalizing acc with
  | nil => simp [binVal]
  | cons c t ih =>
    simp only [List.foldl_cons, List.length_cons, binVal] at *
    rw [ih, ih (2 * 0 + (c - 48)), pow_succ]
    ring

theorem binVal_cons (c : Nat) (t : GoStr) :
    binVal (c :: t) = (c - 48) * 2 ^ t.length + binVal t := by
  have h := binVal_foldl t (2 * 0 + (c - 48))
  simp only [binVal] at h ⊢
  simp only [List.foldl_cons]
  rw [h]
  ring

theorem binVal_append (s t : GoStr) :
    binVal (s ++ t) = binVal s * 2 ^ t.length + binVal t := by
  simp only [binVal, List.foldl_append]
  exact binVal_foldl t _

theorem allBin_iff {s : GoStr} : allBin s = true ↔ ∀ c ∈ s, c = 48 ∨ c = 49 := by
  simp [allBin, List.all_eq_true]

theorem allBin_append {s t : GoStr} (hs : allBin s = true) (ht : allBin t = true) :
    allBin (s ++ t) = true := by
  rw [allBin_iff] at *
  intro c hc
  rcases List.mem_append.mp hc with h | h
  · exact hs c h
  · exact ht c h

theorem allBin_take {s : GoStr} (n : Nat) (h : allBin s = true) :
    allBin (s.take n) = true := by
  rw [allBin_iff] at *
  exact fun c hc => h c (List.take_subset n s hc)

theorem allBin_drop {s : GoStr} (n : Nat) (h : allBin s = true) :
    allBin (s.drop n) = true := by
  rw [allBin_iff] at *
  exact fun c hc => h c (List.drop_subset n s hc)

theorem binVal_lt {s : GoStr} (h : allBin s = true) : binVal s < 2 ^ s.length := by
  induction s with
  | nil => simp [binVal]
  | cons c t ih =>
    rw [allBin_iff] at h
    have ht : binVal t < 2 ^ t.length := by
      apply ih
      rw [allBin_iff]
      exact fun x hx => h x (List.mem_cons_of_mem c hx)
    rw [binVal_cons, List.length_cons, pow_succ]
    rcases h c (List.mem_cons_self c t) with hc | hc <;> subst hc <;> omega

/-! ### Digit-rendering lemmas -/

theorem binDigitsAux_acc (n : Nat) (acc : GoStr) :
    binDigitsAux n acc = binDigitsAux n [] ++ acc := by
  induction n using Nat.strong_induction_on generalizing acc with
  | _ n ih =>
    match n with
    | 0 => simp [binDigitsAux]
    | n + 1 =>
      have hd : (n + 1) / 2 < n + 1 := Nat.div_lt_self (Nat.succ_pos n) (by decide)
      rw [binDigitsAux, binDigitsAux, ih _ hd, ih _ hd [48 + (n + 1) % 2]]
      simp

theorem binDigits_allBin (n : Nat) : allBin (binDigitsAux n []) = true := by
  induction n using Nat.strong_induction_on with
  | _ n ih =>
    match n with
    | 0 => simp [binDigitsAux, allBin]
    | n + 1 =>
      have hd : (n + 1) / 2 < n + 1 := Nat.div_lt_self (Nat.succ_pos n) (by decide)
      rw [binDigitsAux, binDigitsAux_acc]
      apply allBin_append (ih _ hd)
      rw [allBin_iff]
      intro c hc
      simp at hc
      omega

theorem binDigits_val (n : Nat) : binVal (binDigitsAux n []) = n := by
  induction n using Nat.strong_induction_on with
  | _ n ih =>
    match n with
    | 0 => simp [binDigitsAux, binVal]
    | n + 1 =>
      have hd : (n + 1) / 2 < n + 1 := Nat.div_lt_self (Nat.succ_pos n) (by decide)
      rw [binDigitsAux, binDigitsAux_acc, binVal_append, ih _ hd]
      have : binVal [48 + (n + 1) % 2] = (n + 1) % 2 := by
        rw [binVal_cons]
        simp [binVal]
      rw [this]
      simp only [List.length_singleton, pow_one]
      omega

theorem binDigits_length (n k : Nat) (h : n < 2 ^ k) :
    (binDigitsAux n []).length ≤ k := by
  induction k generalizing n with
  | zero =>
    have : n = 0 := by omega
    subst this
    simp [binDigitsAux]
  | succ k ih =>
    match n with
    | 0 => simp [binDigitsAux]
    | n + 1 =>
      rw [binDigitsAux, binDigitsAux_acc]
      have : (n + 1) / 2 < 2 ^ k := by
        rw [pow_succ] at h
        omega
      have := ih _ this
      simp only [List.length_append, List.length_singleton]
      omega

theorem binVal_replicate48 (z : Nat) : binVal (List.replicate z 48) = 0 := by
  induction z with
  | zero => simp [binVal]
  | succ z ih => rw [List.replicate_succ, binVal_cons, ih]; simp

theorem allBin_replicate48 (z : Nat) : allBin (List.replicate z 48) = true := by
  rw [allBin_iff]
  intro c hc
  left
  exact (List.eq_of_mem_replicate hc)

theorem natBin_val (n : Nat) : binVal (natBin n) = n := by
  unfold natBin
  split
  · simp [binVal, *]
  · exact binDigits_val n

theorem natBin_allBin (n : Nat) : allBin (natBin n) = true := by
  unfold natBin
  split
  · simp [allBin]
  · exact binDigits_allBin n

theorem natBin_length_le {n k : Nat} (hk : 1 ≤ k) (h : n < 2 ^ k) :
    (natBin n).length ≤ k := by
  unfold natBin
  split
  · simpa using hk
  · exact binDigits_length n k h

theorem intToBin_allBin (n bits : Nat) : allBin (intToBin n bits) = true := by
  unfold intToBin
  exact allBin_append (allBin_replicate48 _) (natBin_allBin n)

theorem intToBin_val (n bits : Nat) : binVal (intToBin n bits) = n := by
  unfold intToBin
  rw [binVal_append, binVal_replicate48, natBin_val]
  simp

theorem intToBin_length {n bits : Nat} (hb : 1 ≤ bits) (h : n < 2 ^ bits) :
    (intToBin n bits).length = bits := by
  unfold intToBin
  have := natBin_length_le hb h
  simp only [List.length_append, List.length_replicate]
  omega

theorem intToBin_length_ge (n bits : Nat) : bits ≤ (intToBin n bits).length := by
  unfold intToBin
  simp only [List.length_append, List.length_replicate]
  omega

theorem binVal_inj {s t : GoStr} (hs : allBin s = true) (ht : allBin t = true)
    (hlen : s.length = t.length) (hval : binVal s = binVal t) : s = t := by
  induction s generalizing t with
  | nil =>
    cases t with
    | nil => rfl
    | cons d t => simp at hlen
  | cons c s ih =>
    cases t with
    | nil => simp at hlen
    | cons d t =>
      have hlen' : s.length = t.length := by simpa using hlen
      rw [binVal_cons, binVal_cons, hlen'] at hval
      have hcs : c = 48 ∨ c = 49 := (allBin_iff.mp hs) c (List.mem_cons_self c s)
      have hds : d = 48 ∨ d = 49 := (allBin_iff.mp ht) d (List.mem_cons_self d t)
      have hsb : allBin s = true := by
        rw [allBin_iff] at hs ⊢
        exact fun x hx => hs x (List.mem_cons_of_mem c hx)
      have htb : allBin t = true := by
        rw [allBin_iff] at ht ⊢
        exact fun x hx => ht x (List.mem_cons_of_mem d hx)
      have hslt : binVal s < 2 ^ t.length := hlen' ▸ binVal_lt hsb
      have htlt : binVal t < 2 ^ t.length := binVal_lt htb
      have hcd : c = d ∧ binVal s = binVal t := by
        rcases hcs with hc | hc <;> rcases hds with hd' | hd' <;> subst hc <;> subst hd' <;>
          simp at hval <;> omega
      rw [hcd.1, ih hsb htb hlen' hcd.2]

theorem binToInt_eq_binVal {s : GoStr} (hb : allBin s = true) (h1 : s ≠ [])
    (h63 : s.length ≤ 63) : binToInt s = binVal s := by
  unfold binToInt
  rw [if_pos ⟨h1, hb⟩]
  have h1 : binVal s < 2 ^ s.length := binVal_lt hb
  have h2 : (2 : Nat) ^ s.length ≤ 2 ^ 63 := Nat.pow_le_pow_right (by decide) h63
  omega

theorem intToBin_binToInt {s : GoStr} (hb : allBin s = true) (h1 : s ≠ [])
    (h63 : s.length ≤ 63) : intToBin (binToInt s) s.length = s := by
  rw [binToInt_eq_binVal hb h1 h63]
  have hpos : 1 ≤ s.length := List.length_pos.mpr h1
  have hlt : binVal s < 2 ^ s.length := binVal_lt hb
  exact binVal_inj (intToBin_allBin _ _) hb (intToBin_length hpos hlt) (intToBin_val _ _)

theorem binToInt_lt {s : GoStr} (hlen : s.length ≤ 11) : binToInt s < 2048 := by
  unfold binToInt
  split
  · rename_i h
    have := binVal_lt h.2
    have h2 : (2 : Nat) ^ s.length ≤ 2 ^ 11 := Nat.pow_le_pow_right (by decide) hlen
    omega
  · decide

/-! ### `binToBytes` characterization -/

/-- The final flush of `binToBytes` (the `if count != 0` tail of the Go
function), split out for reasoning. -/
def binFinalize (st : List Nat × Nat × Nat) : List Nat :=
  if st.2.2 ≠ 0 then st.1 ++ [(st.2.1 * 2 ^ (8 - st.2.2)) % 256] else st.1

theorem binToBytes_eq_finalize (s : GoStr) :
    binToBytes s = binFinalize (s.foldl binToBytesStep ([], 0, 0)) := rfl

theorem binFinalize_append (bs A : List Nat) (c n : Nat) :
    binFinalize (bs ++ A, c, n) = bs ++ binFinalize (A, c, n) := by
  unfold binFinalize
  split <;> simp

theorem binToBytesStep_decomp (bs : List Nat) (cur cnt v : Nat) :
    binToBytesStep (bs, cur, cnt) v =
      (bs ++ (binToBytesStep ([], cur, cnt) v).1, (binToBytesStep ([], cur, cnt) v).2) := by
  by_cases h8 : cnt = 8 <;> simp [binToBytesStep, h8]

theorem foldl_step_decomp (t : GoStr) (bs : List Nat) (cur cnt : Nat) :
    t.foldl binToBytesStep (bs, cur, cnt) =
      (bs ++ (t.foldl binToBytesStep ([], cur, cnt)).1,
       (t.foldl binToBytesStep ([], cur, cnt)).2) := by
  induction t generalizing bs cur cnt with
  | nil => simp
  | cons v t ih =>
    simp only [List.foldl_cons]
    rw [binToBytesStep_decomp]
    rcases hstep : binToBytesStep ([], cur, cnt) v with ⟨A1, c1, n1⟩
    dsimp only
    rw [ih (bs ++ A1) c1 n1, ih A1 c1 n1]
    simp

theorem foldl_step_accumulate (t : GoStr) (hb : allBin t = true) :
    ∀ bs cur cnt, cnt + t.length ≤ 8 → cur < 2 ^ cnt →
      t.foldl binToBytesStep (bs, cur, cnt) =
        (bs, cur * 2 ^ t.length + binVal t, cnt + t.length) := by
  induction t with
  | nil => intro bs cur cnt _ _; simp [binVal]
  | cons v t ih =>
    intro bs cur cnt hle hcur
    have hv : v = 48 ∨ v = 49 := (allBin_iff.mp hb) v (List.mem_cons_self v t)
    have htb : allBin t = true := by
      rw [allBin_iff] at hb ⊢
      exact fun x hx => hb x (List.mem_cons_of_mem v hx)
    have hcnt : cnt ≠ 8 := by
      simp only [List.length_cons] at hle
      omega
    have hstep : binToBytesStep (bs, cur, cnt) v = (bs, 2 * cur + (v - 48), cnt + 1) := by
      simp only [binToBytesStep, hcnt, if_false, ite_false]
      have hd : (v + 208) % 256 = v - 48 := by rcases hv with h | h <;> subst h <;> decide
      have hlt : 2 * cur + (v - 48) < 256 := by
        have h1 : (2 : Nat) ^ (cnt + 1) ≤ 2 ^ 8 := Nat.pow_le_pow_right (by decide) (by omega)
        have h2 : 2 * cur + (v - 48) < 2 ^ (cnt + 1) := by
          rw [pow_succ]
          rcases hv with h | h <;> subst h <;> omega
        calc 2 * cur + (v - 48) < 2 ^ (cnt + 1) := h2
          _ ≤ 2 ^ 8 := h1
      rw [hd, Nat.mod_eq_of_lt hlt]
    simp only [List.foldl_cons, List.length_cons]
    rw [hstep]
    have h2 : 2 * cur + (v - 48) < 2 ^ (cnt + 1) := by
      rw [pow_succ]
      rcases hv with h | h <;> subst h <;> omega
    rw [ih htb bs _ (cnt + 1) (by simp only [List.length_cons] at hle; omega) h2]
    rw [binVal_cons]
    ring_nf

theorem binToBytes_pending (t : GoStr) (v : Nat) (hv : v < 256) :
    binFinalize (t.foldl binToBytesStep ([], v, 8)) =
      v :: binFinalize (t.foldl binToBytesStep ([], 0, 0)) := by
  cases t with
  | nil => simp [binFinalize, Nat.mod_eq_of_lt hv]
  | cons c t =>
    simp only [List.foldl_cons]
    have h1 : binToBytesStep ([], v, 8) c = ([v], (2 * 0 + (c + 208) % 256) % 256, 1) := by
      simp [binToBytesStep]
    have h2 : binToBytesStep ([], 0, 0) c = ([], (2 * 0 + (c + 208) % 256) % 256, 1) := by
      simp [binToBytesStep]
    rw [h1, h2]
    rw [foldl_step_decomp t [v] ((2 * 0 + (c + 208) % 256) % 256) 1]
    rcases hst : t.foldl binToBytesStep ([], (2 * 0 + (c + 208) % 256) % 256, 1)
      with ⟨A, c2, n2⟩
    dsimp only
    rw [binFinalize_append [v] A c2 n2]
    simp

theorem binToBytes_nil : binToBytes [] = [] := rfl

theorem binToBytes_small {s : GoStr} (hb : allBin s = true) (h0 : s ≠ [])
    (h8 : s.length ≤ 8) : binToBytes s = [binVal s * 2 ^ (8 - s.length)] := by
  rw [binToBytes_eq_finalize]
  rw [foldl_step_accumulate s hb [] 0 0 (by omega) (by decide)]
  have hlen : s.length ≠ 0 := by
    intro h
    exact h0 (List.length_eq_zero.mp h)
  have hmod : binVal s * 2 ^ (8 - s.length) < 256 := by
    have h1 : binVal s < 2 ^ s.length := binVal_lt hb
    calc binVal s * 2 ^ (8 - s.length) < 2 ^ s.length * 2 ^ (8 - s.length) :=
          mul_lt_mul_of_pos_right h1 (by positivity)
      _ = 2 ^ 8 := by rw [← pow_add]; congr 1; omega
  simp [binFinalize, hlen, Nat.mod_eq_of_lt hmod]

theorem binToBytes_step8 {s : GoStr} (hb : allBin s = true) (h8 : 8 ≤ s.length) :
    binToBytes s = binVal (s.take 8) :: binToBytes (s.drop 8) := by
  conv_lhs => rw [binToBytes_eq_finalize, ← List.take_append_drop 8 s]
  rw [List.foldl_append]
  have htake : allBin (s.take 8) = true := allBin_take 8 hb
  have hlen : (s.take 8).length = 8 := by simp [List.length_take]; omega
  rw [foldl_step_accumulate _ htake [] 0 0 (by omega) (by decide), hlen]
  simp only [Nat.zero_mul, Nat.zero_add]
  have hvlt : binVal (s.take 8) < 256 := by
    have h1 := binVal_lt htake
    rw [hlen] at h1
    exact h1
  rw [binToBytes_pending (s.drop 8) _ hvlt, ← binToBytes_eq_finalize]

/-! ### `chunkSplit` lemmas -/

theorem chunkSplit_length (s : GoStr) (size : Nat) :
    (chunkSplit s size).length = s.length / size := by
  simp [chunkSplit]

theorem chunkSplit_of_lt {s : GoStr} {size : Nat} (h : s.length < size) :
    chunkSplit s size = [] := by
  unfold chunkSplit
  rw [Nat.div_eq_of_lt h]
  simp

theorem chunkSplit_cons {s : GoStr} {size : Nat} (h0 : 0 < size) (h : size ≤ s.length) :
    chunkSplit s size = s.take size :: chunkSplit (s.drop size) size := by
  unfold chunkSplit
  rw [Nat.div_eq_sub_div h0 h, List.range_succ_eq_map]
  simp only [List.map_cons, Nat.zero_mul, List.drop_zero, List.map_map, List.length_drop]
  congr 1
  apply List.map_congr_left
  intro i _
  simp only [Function.comp_apply]
  rw [List.drop_drop]
  congr 2
  simp [Nat.succ_eq_add_one]
  ring

theorem chunkSplit_flatten {s : GoStr} {size : Nat} (h0 : 0 < size) (hdvd : size ∣ s.length) :
    (chunkSplit s size).flatten = s := by
  obtain ⟨k, hk⟩ := hdvd
  induction k generalizing s with
  | zero =>
    have : s = [] := List.length_eq_zero.mp (by omega)
    subst this
    simp [chunkSplit]
  | succ k ih =>
    have hle : size ≤ s.length := by
      rw [hk]
      exact Nat.le_mul_of_pos_right size (Nat.succ_pos k)
    rw [chunkSplit_cons h0 hle, List.flatten_cons]
    rw [ih (s := s.drop size) (by
      rw [List.length_drop, hk]
      have h1 : size * (k + 1) = size * k + size := by ring
      omega)]
    exact List.take_append_drop size s

theorem chunkSplit_mem {s : GoStr} {size : Nat} {ch : GoStr} (h0 : 0 < size)
    (h : ch ∈ chunkSplit s size) :
    ch.length = size ∧ ∀ c ∈ ch, c ∈ s := by
  unfold chunkSplit at h
  obtain ⟨i, hi, hch⟩ := List.mem_map.mp h
  rw [List.mem_range] at hi
  have hbound : (i + 1) * size ≤ s.length := by
    calc (i + 1) * size ≤ s.length / size * size := Nat.mul_le_mul_right size hi
      _ ≤ s.length := Nat.div_mul_le_self _ _
  have hmul : (i + 1) * size = i * size + size := by ring
  constructor
  · rw [← hch]
    simp only [List.length_take, List.length_drop]
    omega
  · intro c hc
    rw [← hch] at hc
    exact List.mem_of_mem_drop (List.mem_of_mem_take hc)

/-! ### `bytesToBin` lemmas and the byte round trip -/

theorem bytesToBin_foldl_acc (l : List Nat) (acc : GoStr) :
    l.foldl (fun val n => val ++ intToBin n 8) acc =
      acc ++ (l.map fun n => intToBin n 8).flatten := by
  induction l generalizing acc with
  | nil => simp
  | cons b t ih =>
    simp only [List.foldl_cons, List.map_cons, List.flatten_cons]
    rw [ih]
    simp

theorem bytesToBin_eq_flatten (l : List Nat) :
    bytesToBin l = (l.map fun n => intToBin n 8).flatten := by
  unfold bytesToBin
  rw [bytesToBin_foldl_acc]
  simp

theorem bytesToBin_cons (b : Nat) (t : List Nat) :
    bytesToBin (b :: t) = intToBin b 8 ++ bytesToBin t := by
  rw [bytesToBin_eq_flatten, bytesToBin_eq_flatten]
  simp

theorem bytesToBin_allBin (l : List Nat) : allBin (bytesToBin l) = true := by
  induction l with
  | nil => simp [bytesToBin, allBin]
  | cons b t ih => rw [bytesToBin_cons]; exact allBin_append (intToBin_allBin b 8) ih

theorem bytesToBin_length {l : List Nat} (h : ∀ b ∈ l, b < 256) :
    (bytesToBin l).length = 8 * l.length := by
  induction l with
  | nil => simp [bytesToBin]
  | cons b t ih =>
    rw [bytesToBin_cons]
    have hb : b < 256 := h b (List.mem_cons_self b t)
    have h8 : (intToBin b 8).length = 8 := intToBin_length (by decide) hb
    have ht := ih fun x hx => h x (List.mem_cons_of_mem b hx)
    simp [h8, ht, List.length_cons]
    ring

theorem binToBytes_bytesToBin {l : List Nat} (h : ∀ b ∈ l, b < 256) :
    binToBytes (bytesToBin l) = l := by
  induction l with
  | nil => rfl
  | cons b t ih =>
    rw [bytesToBin_cons]
    have hb : b < 256 := h b (List.mem_cons_self b t)
    have h8 : (intToBin b 8).length = 8 := intToBin_length (by decide) hb
    have hab : allBin (intToBin b 8 ++ bytesToBin t) = true :=
      allBin_append (intToBin_allBin b 8) (bytesToBin_allBin t)
    rw [binToBytes_step8 hab (by simp [h8])]
    have htake : (intToBin b 8 ++ bytesToBin t).take 8 = intToBin b 8 :=
      List.take_left' h8
    have hdrop : (intToBin b 8 ++ bytesToBin t).drop 8 = bytesToBin t :=
      List.drop_left' h8
    rw [htake, hdrop, intToBin_val, ih fun x hx => h x (List.mem_cons_of_mem b hx)]

/-! ### Dictionary lookup lemmas -/

theorem dictLookup_foldl_not_mem {w : GoStr} (l : List GoStr) (hw : w ∉ l) (k : Nat)
    (acc : Option Nat) :
    (l.enumFrom k).foldl (fun acc p => if p.2 = w then some p.1 else acc) acc = acc := by
  induction l generalizing k acc with
  | nil => rfl
  | cons x t ih =>
    rw [List.enumFrom_cons, List.foldl_cons]
    have hx : x ≠ w := fun h => hw (h ▸ List.mem_cons_self x t)
    rw [if_neg hx]
    exact ih (fun h => hw (List.mem_cons_of_mem x h)) (k + 1) acc

theorem dictLookup_foldl_get {w : GoStr} :
    ∀ (l : List GoStr), l.Nodup → ∀ (i : Nat) (hi : i < l.length), l.get ⟨i, hi⟩ = w →
      ∀ (k : Nat) (acc : Option Nat),
        (l.enumFrom k).foldl (fun acc p => if p.2 = w then some p.1 else acc) acc =
          some (k + i) := by
  intro l
  induction l with
  | nil => intro _ i hi; simp at hi
  | cons x t ih =>
    intro hnd i hi hw k acc
    rw [List.enumFrom_cons, List.foldl_cons]
    match i with
    | 0 =>
      have hx : x = w := hw
      rw [if_pos hx]
      have hwt : w ∉ t := hx ▸ (List.nodup_cons.mp hnd).1
      rw [dictLookup_foldl_not_mem t hwt (k + 1) (some k)]
      simp
    | j + 1 =>
      have hget : t.get ⟨j, by simpa using hi⟩ = w := hw
      have hxw : x ≠ w := by
        intro hcontra
        have hwmem : w ∈ t := by
          rw [← hget]
          exact List.get_mem t _ _
        exact (List.nodup_cons.mp hnd).1 (hcontra ▸ hwmem)
      rw [if_neg hxw, ih (List.nodup_cons.mp hnd).2 j _ hget (k + 1) acc]
      congr 1
      omega

theorem dictLookup_get {ws : List GoStr} (hnd : ws.Nodup) {i : Nat} (hi : i < ws.length) :
    dictLookup ws (ws.get ⟨i, hi⟩) = some i := by
  unfold dictLookup
  have h := dictLookup_foldl_get ws hnd i hi rfl 0 none
  simpa [List.enum] using h

/-! ### `validateWordsPrecense` and `buildBins` lemmas -/

theorem validateWordsPrecense_eq (m : mnemonicer) (words : List GoStr) :
    m.validateWordsPrecense words =
      match words.find? (fun w => (dictLookup m.words w).isNone) with
      | some w => .error (.unrecognizedWord w)
      | none => .ok () := by
  induction words with
  | nil => rfl
  | cons w ws ih =>
    rw [mnemonicer.validateWordsPrecense, List.find?_cons]
    by_cases h : (dictLookup m.words w).isNone = true <;> simp [h, ih]

theorem validateWordsPrecense_ok (m : mnemonicer) {words : List GoStr}
    (hw : ∀ w ∈ words, (dictLookup m.words w).isNone = false) :
    m.validateWordsPrecense words = .ok () := by
  rw [validateWordsPrecense_eq]
  have : words.find? (fun w => (dictLookup m.words w).isNone) = none := by
    rw [List.find?_eq_none]
    intro w hmem
    simp [hw w hmem]
  rw [this]

theorem foldl_append_map_flatten {α : Type} (f : α → GoStr) (l : List α) (acc : GoStr) :
    l.foldl (fun bins w => bins ++ f w) acc = acc ++ (l.map f).flatten := by
  induction l generalizing acc with
  | nil => simp
  | cons b t ih =>
    simp only [List.foldl_cons, List.map_cons, List.flatten_cons]
    rw [ih]
    simp

theorem buildBins_ok (m : mnemonicer) {strength : Nat}
    (hs : validateStrength strength = .ok ()) {words : List GoStr}
    (hw : ∀ w ∈ words, (dictLookup m.words w).isNone = false) :
    m.buildBins strength words =
      .ok ((words.map fun w => intToBin ((dictLookup m.words w).getD 0) 11).flatten) := by
  unfold mnemonicer.buildBins
  rw [hs, validateWordsPrecense_ok m hw]
  rw [foldl_append_map_flatten]
  simp

/-! ### Array-fill characterization for `Generate`'s word loop -/

theorem foldl_set_enumFrom {α β : Type} (f : α → β) :
    ∀ (l : List α) (k : Nat) (ws0 : List β), k + l.length ≤ ws0.length →
      (l.enumFrom k).foldl (fun ws p => ws.set p.1 (f p.2)) ws0 =
        ws0.take k ++ l.map f ++ ws0.drop (k + l.length) := by
  intro l
  induction l with
  | nil =>
    intro k ws0 h
    simp [List.take_append_drop]
  | cons a t ih =>
    intro k ws0 h
    rw [List.enumFrom_cons, List.foldl_cons]
    simp only [List.length_cons] at h
    have hk : k < ws0.length := by omega
    rw [ih (k + 1) (ws0.set k (f a)) (by simp only [List.length_set]; omega)]
    rw [List.set_eq_take_cons_drop (f a) hk]
    have htake : (ws0.take k ++ f a :: ws0.drop (k + 1)).take (k + 1) =
        ws0.take k ++ [f a] := by
      rw [List.take_append_eq_append_take]
      have h1 : (ws0.take k).length = k := List.length_take_of_le (by omega)
      rw [h1]
      simp only [Nat.add_sub_cancel_left]
      rw [List.take_of_length_le (by rw [h1]; omega)]
      simp
    have hdrop : (ws0.take k ++ f a :: ws0.drop (k + 1)).drop (k + 1 + t.length) =
        ws0.drop (k + 1 + t.length) := by
      rw [List.drop_append_eq_append_drop]
      have h1 : (ws0.take k).length = k := List.length_take_of_le (by omega)
      rw [h1]
      have h2 : (ws0.take k).drop (k + 1 + t.length) = [] := by
        apply List.drop_eq_nil_of_le
        rw [h1]
        omega
      rw [h2, List.nil_append]
      have h3 : k + 1 + t.length - k = 1 + t.length := by omega
      rw [h3]
      cases ht : 1 + t.length with
      | zero => omega
      | succ n =>
        rw [List.drop_succ_cons, List.drop_drop]
        congr 1
        omega
    rw [htake, hdrop, List.map_cons]
    have hassoc : k + 1 + t.length = k + (t.length + 1) := by omega
    rw [hassoc]
    simp

theorem foldl_set_fill {α β : Type} (f : α → β) (l : List α) (d x : β) :
    ((l.enum.foldl (fun ws p => ws.set p.1 (f p.2))
        (List.replicate (l.length + 1) d)).set l.length x) = l.map f ++ [x] := by
  have h := foldl_set_enumFrom f l 0 (List.replicate (l.length + 1) d)
    (by simp)
  rw [List.enum] at *
  rw [h]
  simp only [List.take_zero, List.nil_append, Nat.zero_add, List.drop_replicate]
  have h1 : l.length + 1 - l.length = 1 := by omega
  rw [h1]
  rw [List.set_append_right _ _ (by simp)]
  simp [List.replicate]

/-! ### Strength arithmetic -/

/-- The five supported entropy strengths. -/
def strengthSet (st : Nat) : Prop :=
  st = 128 ∨ st = 160 ∨ st = 192 ∨ st = 224 ∨ st = 256

/-- The five supported word counts. -/
def sizeSet (size : Int) : Prop :=
  size = 12 ∨ size = 15 ∨ size = 18 ∨ size = 21 ∨ size = 24

theorem sentenceStrengths_mem {size : Int} (hsz : sizeSet size) :
    strengthSet (sentenceStrengths size) := by
  rcases hsz with h | h | h | h | h <;> subst h <;>
    simp [sentenceStrengths, strengthSet]

theorem sentenceStrengths_not_mem {size : Int} (hsz : ¬ sizeSet size) :
    sentenceStrengths size = 0 := by
  unfold sentenceStrengths sizeSet at *
  split <;> try split <;> try split <;> try split <;> try split
  all_goals first | rfl | (exfalso; apply hsz; tauto)

theorem validateStrength_mem {st : Nat} (hst : strengthSet st) :
    validateStrength st = .ok () := by
  unfold validateStrength
  rcases hst with h | h | h | h | h <;> subst h <;> rfl

theorem validateStrength_zero : validateStrength 0 = .error (.unsupportedStrength 0) := rfl

theorem strength_div8 {st : Nat} (hst : strengthSet st) : 8 * (st / 8) = st := by
  rcases hst with h | h | h | h | h <;> subst h <;> decide

theorem strength_msize {st : Nat} (hst : strengthSet st) :
    (st - (11 - st / 32)) / 11 + 1 = (st + st / 32) / 11 := by
  rcases hst with h | h | h | h | h <;> subst h <;> decide

theorem strength_dvd11 {st : Nat} (hst : strengthSet st) :
    11 ∣ st - (11 - st / 32) := by
  rcases hst with h | h | h | h | h <;> subst h <;> decide

theorem strength_cs_le8 {st : Nat} (hst : strengthSet st) : st / 32 ≤ 8 := by
  rcases hst with h | h | h | h | h <;> subst h <;> decide

theorem strength_cs_pos {st : Nat} (hst : strengthSet st) : 1 ≤ st / 32 := by
  rcases hst with h | h | h | h | h <;> subst h <;> decide

theorem strength_pfx (st : Nat) : st - (11 - st / 32) ≤ st := by omega

theorem strength_back {st : Nat} (hst : strengthSet st) :
    sentenceStrengths (((st + st / 32) / 11 : Nat) : Int) = st := by
  rcases hst with h | h | h | h | h <;> subst h <;> decide

theorem strength_group {st : Nat} (hst : strengthSet st) :
    (11 - st / 32) + st / 32 = 11 := by
  rcases hst with h | h | h | h | h <;> subst h <;> decide

/-! ### `deriveEntropy` lemmas -/

theorem getD_lt_256 {l : List Nat} (h : ∀ b ∈ l, b < 256) (i : Nat) : l.getD i 0 < 256 := by
  rw [List.getD_eq_getElem?_getD]
  by_cases hi : i < l.length
  · rw [List.getElem?_eq_getElem hi]
    exact h _ (List.getElem_mem hi)
  · rw [List.getElem?_eq_none (by omega)]
    decide

theorem scryptParams_valid : scryptParamsOk (2 ^ 18) 8 1 = true := by decide

theorem scrypt_ok (c : Crypto) (pw salt : GoStr) (kl : Nat) :
    c.scrypt pw salt (2 ^ 18) 8 1 kl = .ok (c.scryptCore pw salt (2 ^ 18) 8 1 kl) := by
  unfold Crypto.scrypt
  rw [scryptParams_valid]
  rfl

theorem deriveEntropy_eq (c : Crypto) (identifier password passcode : GoStr) (size : Int) :
    deriveEntropy c identifier password passcode size =
      (List.range (sentenceStrengths size / 8)).map fun i =>
        Nat.xor
          ((c.pbkdf2Sha512 (buildInput identifier password passcode size)
              (saltPwd ++ password ++ saltCode ++ passcode) (2 ^ 18)
              (sentenceStrengths size / 8)).getD i 0)
          ((c.scryptCore (buildInput identifier password passcode size)
              (saltPwd ++ password ++ saltCode ++ passcode) (2 ^ 18) 8 1
              (sentenceStrengths size / 8)).getD i 0) := by
  unfold deriveEntropy
  simp only [scrypt_ok, Except.toOption, Option.getD_some]

theorem deriveEntropy_length (c : Crypto) (identifier password passcode : GoStr)
    (size : Int) :
    (deriveEntropy c identifier password passcode size).length =
      sentenceStrengths size / 8 := by
  rw [deriveEntropy_eq]
  simp

theorem deriveEntropy_lt (c : Crypto) (hc : c.Good) (identifier password passcode : GoStr)
    (size : Int) : ∀ b ∈ deriveEntropy c identifier password passcode size, b < 256 := by
  rw [deriveEntropy_eq]
  intro b hb
  obtain ⟨i, _, rfl⟩ := List.mem_map.mp hb
  exact Nat.xor_lt_two_pow (n := 8)
    (getD_lt_256 (hc.pbkdf2_lt _ _ _ _) i)
    (getD_lt_256 (hc.scrypt_lt _ _ _ _ _ _) i)

/-! ### Characterization of `Generate`'s success path -/

/-- The word list produced by a successful `Generate`, in the
first-words-mapped-from-chunks plus final-word form: the first
`strength - prefixSize` bits of the entropy bit string are split into
11-bit groups indexing the dictionary, and the last word's index is the
leftover entropy bits followed by the checksum bits. -/
def genWords (c : Crypto) (m : mnemonicer) (identifier password passcode : GoStr)
    (size : Int) : List GoStr :=
  let strength := sentenceStrengths size
  let entropy := deriveEntropy c identifier password passcode size
  let bins := bytesToBin entropy
  let csSize := strength / 32
  let pfxSize := 11 - csSize
  (chunkSplit (bins.take (strength - pfxSize)) 11).map
      (fun ch => m.words.getD (binToInt ch) []) ++
    [m.words.getD
      (binToInt (bins.drop (strength - pfxSize) ++ checksum c entropy csSize)) []]

theorem bins_length (c : Crypto) (hc : c.Good) (identifier password passcode : GoStr)
    {size : Int} (hsz : sizeSet size) :
    (bytesToBin (deriveEntropy c identifier password passcode size)).length =
      sentenceStrengths size := by
  rw [bytesToBin_length (deriveEntropy_lt c hc identifier password passcode size),
    deriveEntropy_length]
  exact strength_div8 (sentenceStrengths_mem hsz)

theorem generate_eq (c : Crypto) (hc : c.Good) (m : mnemonicer)
    (identifier password passcode : GoStr) (size : Int)
    (hid : ¬ identifier.length < 2) (hpw : ¬ password.length < 12)
    (hpc : passcode.length = 6) (hnum : atoiOk passcode = true)
    (hsz : sizeSet size) :
    Generate c m identifier password passcode size =
      .ok (genWords c m identifier password passcode size) := by
  have hst : strengthSet (sentenceStrengths size) := sentenceStrengths_mem hsz
  have hblen := bins_length c hc identifier password passcode hsz
  have htklen : ((bytesToBin (deriveEntropy c identifier password passcode size)).take
      (sentenceStrengths size - (11 - sentenceStrengths size / 32))).length =
      sentenceStrengths size - (11 - sentenceStrengths size / 32) := by
    rw [List.length_take, hblen]
    omega
  have hWIlen : (chunkSplit ((bytesToBin
      (deriveEntropy c identifier password passcode size)).take
      (sentenceStrengths size - (11 - sentenceStrengths size / 32))) 11).length + 1 =
      (sentenceStrengths size + sentenceStrengths size / 32) / 11 := by
    rw [chunkSplit_length, htklen]
    exact strength_msize hst
  have hsub : (chunkSplit ((bytesToBin
      (deriveEntropy c identifier password passcode size)).take
      (sentenceStrengths size - (11 - sentenceStrengths size / 32))) 11).length + 1 - 1 =
      (chunkSplit ((bytesToBin
      (deriveEntropy c identifier password passcode size)).take
      (sentenceStrengths size - (11 - sentenceStrengths size / 32))) 11).length := by
    omega
  unfold Generate genWords
  rw [if_neg hid, if_neg hpw, if_neg (by simp [hpc]), if_neg (by simp [hnum])]
  simp only [validateStrength_mem hst]
  rw [← hWIlen, hsub]
  exact congrArg Except.ok
    (foldl_set_fill (fun ch => m.words.getD (binToInt ch) []) _ ([] : GoStr) _)

/-! ### Checksum and dictionary helper lemmas -/

theorem checksum_spec (c : Crypto) (hc : c.Good) (entropy : List Nat) {k : Nat}
    (hk : k ≤ 8) :
    (checksum c entropy k).length = k ∧ allBin (checksum c entropy k) = true := by
  unfold checksum
  have hbyte : (c.sha256 entropy).headD 0 < 256 := by
    have hlen := hc.sha256_length entropy
    cases hsha : c.sha256 entropy with
    | nil => rw [hsha] at hlen; simp at hlen
    | cons b t =>
      simp only [List.headD_cons]
      exact hc.sha256_lt entropy b (hsha ▸ List.mem_cons_self b t)
  constructor
  · rw [List.length_take, intToBin_length (by decide) hbyte]
    omega
  · exact allBin_take _ (intToBin_allBin _ _)

theorem dict_word_lookup {m : mnemonicer} (hlen : m.words.length = 2048)
    (hnd : m.words.Nodup) {idx : Nat} (hidx : idx < 2048) :
    dictLookup m.words (m.words.getD idx []) = some idx := by
  have hi : idx < m.words.length := by omega
  have hgd : m.words.getD idx [] = m.words.get ⟨idx, hi⟩ := by
    rw [List.getD_eq_getElem?_getD, List.getElem?_eq_getElem hi]
    simp [List.get_eq_getElem]
  rw [hgd]
  exact dictLookup_get hnd hi

/-! ### The encoder and the decode round trip -/

/-- The word list encoding a given entropy byte sequence at a given
strength (the success value of `Generate`, with the entropy abstracted). -/
def encodeWords (c : Crypto) (m : mnemonicer) (entropy : List Nat) (st : Nat) :
    List GoStr :=
  let bins := bytesToBin entropy
  let csSize := st / 32
  let pfxSize := 11 - csSize
  (chunkSplit (bins.take (st - pfxSize)) 11).map
      (fun ch => m.words.getD (binToInt ch) []) ++
    [m.words.getD (binToInt (bins.drop (st - pfxSize) ++ checksum c entropy csSize)) []]

theorem genWords_eq_encodeWords (c : Crypto) (m : mnemonicer)
    (identifier password passcode : GoStr) (size : Int) :
    genWords c m identifier password passcode size =
      encodeWords c m (deriveEntropy c identifier password passcode size)
        (sentenceStrengths size) := rfl

theorem encodeWords_length (c : Crypto) (m : mnemonicer) {entropy : List Nat}
    (hent : ∀ b ∈ entropy, b < 256) {st : Nat} (hst : strengthSet st)
    (hentlen : entropy.length = st / 8) :
    (encodeWords c m entropy st).length = (st + st / 32) / 11 := by
  have hblen : (bytesToBin entropy).length = st := by
    rw [bytesToBin_length hent, hentlen]
    exact strength_div8 hst
  unfold encodeWords
  simp only [List.length_append, List.length_map, List.length_singleton,
    chunkSplit_length, List.length_take, hblen]
  have h1 : min (st - (11 - st / 32)) st = st - (11 - st / 32) := by omega
  rw [h1]
  exact strength_msize hst

theorem buildBins_encode (c : Crypto) (hc : c.Good) (m : mnemonicer)
    (hlen : m.words.length = 2048) (hnd : m.words.Nodup)
    {entropy : List Nat} (hent : ∀ b ∈ entropy, b < 256) {st : Nat}
    (hst : strengthSet st) (hentlen : entropy.length = st / 8) :
    m.buildBins st (encodeWords c m entropy st) =
      .ok (bytesToBin entropy ++ checksum c entropy (st / 32)) := by
  have hblen : (bytesToBin entropy).length = st := by
    rw [bytesToBin_length hent, hentlen]
    exact strength_div8 hst
  have hab : allBin (bytesToBin entropy) = true := bytesToBin_allBin entropy
  have hchunk : ∀ ch ∈ chunkSplit ((bytesToBin entropy).take (st - (11 - st / 32))) 11,
      ch.length = 11 ∧ allBin ch = true := by
    intro ch hch
    obtain ⟨hchlen, hchsub⟩ := chunkSplit_mem (by decide) hch
    refine ⟨hchlen, ?_⟩
    rw [allBin_iff]
    intro x hx
    exact allBin_iff.mp (allBin_take (st - (11 - st / 32)) hab) x (hchsub x hx)
  have hcs := checksum_spec c hc entropy (strength_cs_le8 hst)
  have hpfxlen : ((bytesToBin entropy).drop (st - (11 - st / 32))).length =
      11 - st / 32 := by
    rw [List.length_drop, hblen]
    have := strength_cs_le8 hst
    have := strength_cs_pos hst
    omega
  have hlastlen : ((bytesToBin entropy).drop (st - (11 - st / 32)) ++
      checksum c entropy (st / 32)).length = 11 := by
    rw [List.length_append, hpfxlen, hcs.1]
    exact strength_group hst
  have hlastbin : allBin ((bytesToBin entropy).drop (st - (11 - st / 32)) ++
      checksum c entropy (st / 32)) = true :=
    allBin_append (allBin_drop _ hab) hcs.2
  have hpres : ∀ w ∈ encodeWords c m entropy st,
      (dictLookup m.words w).isNone = false := by
    intro w hw
    unfold encodeWords at hw
    rcases List.mem_append.mp hw with hmem | hmem
    · obtain ⟨ch, hchm, rfl⟩ := List.mem_map.mp hmem
      have h11 := (hchunk ch hchm).1
      have hidx : binToInt ch < 2048 := binToInt_lt (by omega)
      rw [dict_word_lookup hlen hnd hidx]
      rfl
    · rw [List.mem_singleton.mp hmem]
      have hidx : binToInt ((bytesToBin entropy).drop (st - (11 - st / 32)) ++
          checksum c entropy (st / 32)) < 2048 := binToInt_lt (by rw [hlastlen])
      rw [dict_word_lookup hlen hnd hidx]
      rfl
  rw [buildBins_ok m (validateStrength_mem hst) hpres]
  congr 1
  unfold encodeWords
  rw [List.map_append, List.map_map]
  have hmapchunks :
      (chunkSplit ((bytesToBin entropy).take (st - (11 - st / 32))) 11).map
        ((fun w => intToBin ((dictLookup m.words w).getD 0) 11) ∘
          fun ch => m.words.getD (binToInt ch) []) =
      chunkSplit ((bytesToBin entropy).take (st - (11 - st / 32))) 11 := by
    have hcongr : ∀ ch ∈ chunkSplit ((bytesToBin entropy).take (st - (11 - st / 32))) 11,
        ((fun w => intToBin ((dictLookup m.words w).getD 0) 11) ∘
          fun ch => m.words.getD (binToInt ch) []) ch = id ch := by
      intro ch hch
      obtain ⟨h11, hchb⟩ := hchunk ch hch
      have hidx : binToInt ch < 2048 := binToInt_lt (by omega)
      simp only [Function.comp_apply, id_eq]
      rw [dict_word_lookup hlen hnd hidx]
      simp only [Option.getD_some]
      have hrt := intToBin_binToInt hchb (by
        intro hnil
        rw [hnil] at h11
        simp at h11) (by omega)
      rw [h11] at hrt
      exact hrt
    rw [List.map_congr_left hcongr, List.map_id]
  rw [hmapchunks]
  have hlastw : intToBin ((dictLookup m.words
      (m.words.getD (binToInt ((bytesToBin entropy).drop (st - (11 - st / 32)) ++
        checksum c entropy (st / 32))) [])).getD 0) 11 =
      (bytesToBin entropy).drop (st - (11 - st / 32)) ++ checksum c entropy (st / 32) := by
    have hidx : binToInt ((bytesToBin entropy).drop (st - (11 - st / 32)) ++
        checksum c entropy (st / 32)) < 2048 := binToInt_lt (by rw [hlastlen])
    rw [dict_word_lookup hlen hnd hidx]
    simp only [Option.getD_some]
    have hrt := intToBin_binToInt hlastbin (by
      intro hnil
      rw [hnil] at hlastlen
      simp at hlastlen) (by omega)
    rw [hlastlen] at hrt
    exact hrt
  rw [List.map_cons, List.map_nil, hlastw]
  rw [List.flatten_append]
  have htklen : ((bytesToBin entropy).take (st - (11 - st / 32))).length =
      st - (11 - st / 32) := by
    rw [List.length_take, hblen]
    omega
  have hflat : (chunkSplit ((bytesToBin entropy).take (st - (11 - st / 32))) 11).flatten =
      (bytesToBin entropy).take (st - (11 - st / 32)) :=
    chunkSplit_flatten (by decide) (by rw [htklen]; exact strength_dvd11 hst)
  rw [hflat]
  simp only [List.flatten_cons, List.flatten_nil, List.append_nil]
  rw [← List.append_assoc, List.take_append_drop]

theorem encodeWords_roundtrip (c : Crypto) (hc : c.Good) (m : mnemonicer)
    (hlen : m.words.length = 2048) (hnd : m.words.Nodup)
    {entropy : List Nat} (hent : ∀ b ∈ entropy, b < 256) {st : Nat}
    (hst : strengthSet st) (hentlen : entropy.length = st / 8) :
    IsValid c m (encodeWords c m entropy st) = .ok true ∧
    CalculateEntropy c m (encodeWords c m entropy st) = .ok entropy := by
  have hblen : (bytesToBin entropy).length = st := by
    rw [bytesToBin_length hent, hentlen]
    exact strength_div8 hst
  have hwslen := encodeWords_length c m hent hst hentlen
  have hstrength : sentenceStrengths ((encodeWords c m entropy st).length : Int) = st := by
    rw [hwslen]
    exact strength_back hst
  have hbuild := buildBins_encode c hc m hlen hnd hent hst hentlen
  have htake : (bytesToBin entropy ++ checksum c entropy (st / 32)).take st =
      bytesToBin entropy := List.take_left' hblen
  have hdrop : (bytesToBin entropy ++ checksum c entropy (st / 32)).drop st =
      checksum c entropy (st / 32) := List.drop_left' hblen
  constructor
  · unfold IsValid
    simp only [hstrength, hbuild, htake, hdrop, binToBytes_bytesToBin hent]
    simp
  · unfold CalculateEntropy
    simp only [hstrength, hbuild, htake, hdrop, binToBytes_bytesToBin hent]
    simp

/-! ### Additional support lemmas -/

theorem sha256_headD_lt (c : Crypto) (hc : c.Good) (entropy : List Nat) :
    (c.sha256 entropy).headD 0 < 256 := by
  have hlen := hc.sha256_length entropy
  cases hsha : c.sha256 entropy with
  | nil => rw [hsha] at hlen; simp at hlen
  | cons b t =>
    simp only [List.headD_cons]
    exact hc.sha256_lt entropy b (hsha ▸ List.mem_cons_self b t)

theorem getD_map_range {f : Nat → Nat} {n i : Nat} (hi : i < n) :
    ((List.range n).map f).getD i 0 = f i := by
  rw [List.getD_eq_getElem?_getD, List.getElem?_map, List.getElem?_range hi]
  rfl

theorem strength_msize_sub {st : Nat} (hst : strengthSet st) :
    (st - (11 - st / 32)) / 11 = (st + st / 32) / 11 - 1 := by
  rcases hst with h | h | h | h | h <;> subst h <;> decide

theorem strength_dvd8 {st : Nat} (hst : strengthSet st) : 8 ∣ st := by
  rcases hst with h | h | h | h | h <;> subst h <;> decide

theorem binToBytes_eq_chunks_aux :
    ∀ (n : Nat) (s : GoStr), s.length ≤ n → allBin s = true → 8 ∣ s.length →
      binToBytes s = (chunkSplit s 8).map binVal := by
  intro n
  induction n with
  | zero =>
    intro s hs _ _
    have hnil : s = [] := List.length_eq_zero.mp (by omega)
    subst hnil
    rfl
  | succ n ih =>
    intro s hs hbin hdvd
    by_cases h0 : s.length = 0
    · have hnil : s = [] := List.length_eq_zero.mp h0
      subst hnil
      rfl
    · have hle : 8 ≤ s.length := by
        rcases hdvd with ⟨k, hk⟩
        rcases k with _ | k
        · omega
        · have : 8 * (k + 1) = 8 * k + 8 := by ring
          omega
      rw [binToBytes_step8 hbin hle, chunkSplit_cons (by decide) hle, List.map_cons]
      congr 1
      refine ih (s.drop 8) (by simp [List.length_drop]; omega) (allBin_drop 8 hbin) ?_
      rw [List.length_drop]
      exact Nat.dvd_sub' hdvd (by decide)

theorem binToBytes_eq_chunks {s : GoStr} (hbin : allBin s = true) (hdvd : 8 ∣ s.length) :
    binToBytes s = (chunkSplit s 8).map binVal :=
  binToBytes_eq_chunks_aux s.length s (le_refl _) hbin hdvd

theorem bins_flatten_length_ge (m : mnemonicer) (words : List GoStr) :
    11 * words.length ≤
      ((words.map fun w => intToBin ((dictLookup m.words w).getD 0) 11).flatten).length := by
  induction words with
  | nil => simp
  | cons w ws ih =>
    simp only [List.map_cons, List.flatten_cons, List.length_append, List.length_cons]
    have h1 := intToBin_length_ge ((dictLookup m.words w).getD 0) 11
    have h2 : 11 * (ws.length + 1) = 11 * ws.length + 11 := by ring
    omega

theorem bins_flatten_allBin (m : mnemonicer) (words : List GoStr) :
    allBin ((words.map fun w => intToBin ((dictLookup m.words w).getD 0) 11).flatten) =
      true := by
  induction words with
  | nil => rfl
  | cons w ws ih =>
    simp only [List.map_cons, List.flatten_cons]
    exact allBin_append (intToBin_allBin _ _) ih

theorem strength_le_11mul {len : Nat}
    (hlen : len = 12 ∨ len = 15 ∨ len = 18 ∨ len = 21 ∨ len = 24) :
    sentenceStrengths (len : Int) ≤ 11 * len := by
  rcases hlen with h | h | h | h | h <;> subst h <;> decide

theorem sentenceStrengths_nat_mem {len : Nat}
    (hlen : len = 12 ∨ len = 15 ∨ len = 18 ∨ len = 21 ∨ len = 24) :
    strengthSet (sentenceStrengths (len : Int)) := by
  rcases hlen with h | h | h | h | h <;> subst h <;>
    simp [sentenceStrengths, strengthSet]

theorem sentenceStrengths_nat_not_mem {len : Nat}
    (hlen : ¬ (len = 12 ∨ len = 15 ∨ len = 18 ∨ len = 21 ∨ len = 24)) :
    sentenceStrengths (len : Int) = 0 := by
  apply sentenceStrengths_not_mem
  unfold sizeSet
  intro hcon
  apply hlen
  rcases hcon with h | h | h | h | h
  · left; exact_mod_cast h
  · right; left; exact_mod_cast h
  · right; right; left; exact_mod_cast h
  · right; right; right; left; exact_mod_cast h
  · right; right; right; right; exact_mod_cast h

/-! ### Concrete fixtures used by the witnesses -/

/-- A crypto instance whose primitives return all-zero outputs of the
correct lengths, for evaluating the embedding on concrete inputs. -/
def zeroCrypto : Crypto where
  pbkdf2Sha512 := fun _ _ _ kl => List.replicate kl 0
  scryptCore := fun _ _ _ _ _ kl => List.replicate kl 0
  sha256 := fun _ => List.replicate 32 0

theorem zeroCrypto_good : zeroCrypto.Good where
  pbkdf2_length := fun _ _ _ kl => by simp [zeroCrypto]
  pbkdf2_lt := fun _ _ _ kl b hb => by
    rw [List.eq_of_mem_replicate hb]
    decide
  scrypt_length := fun _ _ _ _ _ kl => by simp [zeroCrypto]
  scrypt_lt := fun _ _ _ _ _ kl b hb => by
    rw [List.eq_of_mem_replicate hb]
    decide
  sha256_length := fun _ => by simp [zeroCrypto]
  sha256_lt := fun _ b hb => by
    rw [List.eq_of_mem_replicate hb]
    decide

/-- A 2048-entry dictionary of pairwise distinct one-byte words. -/
def testWords : List GoStr := (List.range 2048).map fun i => [i]

/-- The mnemonicer over the test dictionary. -/
def testM : mnemonicer := ⟨testWords⟩

theorem testM_length : testM.words.length = 2048 := by
  simp [testM, testWords]

set_option maxRecDepth 8000 in
theorem testM_nodup : testM.words.Nodup := by
  have h : testM.words = (List.range 2048).map fun i => ([i] : GoStr) := rfl
  rw [h]
  apply List.Nodup.map
  · intro a b hab
    simpa using hab
  · exact List.nodup_range 2048

/-- Concrete identifier "ab". -/
def idW : GoStr := [97, 98]

/-- Concrete password "aaaaaaaaaaaa". -/
def pwW : GoStr := List.replicate 12 97

/-- Concrete passcode "012345". -/
def pcW : GoStr := [48, 49, 50, 51, 52, 53]

/-- Concrete passcode "+12345": six characters, not all digits, yet
accepted by Go's Atoi. -/
def pcSigned : GoStr := [43, 49, 50, 51, 52, 53]

/-- Concrete passcode "abcdef": six characters, rejected by Atoi. -/
def pcBad : GoStr := [97, 98, 99, 100, 101, 102]

/-! ### Specification-side reference definitions

These definitions transcribe the specification's wording of the decode
pipeline and of the generic bit-packing routine; the claims compare them
with the code-derived definitions above. -/

/-- Go `CalculateEntropy` as worded by the specification: unsupported word
count fails with `UnsupportedStrength 0`; otherwise the first
unrecognized word fails; otherwise the words decode to 11-bit groups, the
first `strength` bits are packed MSB-first into `strength / 8` bytes, and
the recomputed checksum is compared with the trailing bits. -/
def calcEntropySpec (c : Crypto) (m : mnemonicer) (words : List GoStr) :
    Except Err (List Nat) :=
  if words.length = 12 ∨ words.length = 15 ∨ words.length = 18 ∨
      words.length = 21 ∨ words.length = 24 then
    match words.find? (fun w => (dictLookup m.words w).isNone) with
    | some w => .error (.unrecognizedWord w)
    | none =>
      let strength := sentenceStrengths (words.length : Int)
      let bins := (words.map fun w => intToBin ((dictLookup m.words w).getD 0) 11).flatten
      let entropy := (chunkSplit (bins.take strength) 8).map binVal
      if checksum c entropy (strength / 32) = bins.drop strength then .ok entropy
      else .error .invalidChecksum
  else .error (.unsupportedStrength 0)

/-- Go `IsValid` as worded by the specification: same precedence on the
error channel, boolean checksum outcome. -/
def isValidSpec (c : Crypto) (m : mnemonicer) (words : List GoStr) :
    Except Err Bool :=
  if words.length = 12 ∨ words.length = 15 ∨ words.length = 18 ∨
      words.length = 21 ∨ words.length = 24 then
    match words.find? (fun w => (dictLookup m.words w).isNone) with
    | some w => .error (.unrecognizedWord w)
    | none =>
      let strength := sentenceStrengths (words.length : Int)
      let bins := (words.map fun w => intToBin ((dictLookup m.words w).getD 0) 11).flatten
      let entropy := (chunkSplit (bins.take strength) 8).map binVal
      if checksum c entropy (strength / 32) = bins.drop strength then .ok true
      else .ok false
  else .error (.unsupportedStrength 0)

/-- The bit-packing routine as worded by the specification: full 8-bit
groups are packed MSB-first into consecutive bytes, and a final partial
group of `k < 8` bits is shifted left by `8 - k` into the high bits of
the last byte. -/
def packBitsSpec (s : GoStr) : List Nat :=
  if s.length = 0 then []
  else if s.length < 8 then [binVal s * 2 ^ (8 - s.length)]
  else binVal (s.take 8) :: packBitsSpec (s.drop 8)
termination_by s.length
decreasing_by simp only [List.length_drop]; omega

theorem binToBytes_eq_packBitsSpec_aux :
    ∀ (n : Nat) (s : GoStr), s.length ≤ n → allBin s = true →
      binToBytes s = packBitsSpec s := by
  intro n
  induction n with
  | zero =>
    intro s hs _
    have hnil : s = [] := List.length_eq_zero.mp (by omega)
    subst hnil
    rw [packBitsSpec]
    rfl
  | succ n ih =>
    intro s hs hbin
    by_cases h0 : s.length = 0
    · have hnil : s = [] := List.length_eq_zero.mp h0
      subst hnil
      rw [packBitsSpec]
      rfl
    · by_cases h8 : s.length < 8
      · rw [binToBytes_small hbin (fun h => h0 (by rw [h]; rfl)) (by omega), packBitsSpec]
        rw [if_neg h0, if_pos h8]
      · have hle : 8 ≤ s.length := by omega
        rw [binToBytes_step8 hbin hle, packBitsSpec, if_neg h0, if_neg h8]
        congr 1
        exact ih (s.drop 8) (by simp [List.length_drop]; omega) (allBin_drop 8 hbin)

theorem binToBytes_length_ceil :
    ∀ (n : Nat) (s : GoStr), s.length ≤ n → allBin s = true →
      (binToBytes s).length = (s.length + 7) / 8 := by
  intro n
  induction n with
  | zero =>
    intro s hs _
    have hnil : s = [] := List.length_eq_zero.mp (by omega)
    subst hnil
    rfl
  | succ n ih =>
    intro s hs hbin
    by_cases h0 : s.length = 0
    · have hnil : s = [] := List.length_eq_zero.mp h0
      subst hnil
      rfl
    · by_cases h8 : s.length < 8
      · rw [binToBytes_small hbin (fun h => h0 (by rw [h]; rfl)) (by omega)]
        simp only [List.length_singleton]
        omega
      · have hle : 8 ≤ s.length := by omega
        rw [binToBytes_step8 hbin hle]
        rw [List.length_cons, ih (s.drop 8) (by simp [List.length_drop]; omega)
          (allBin_drop 8 hbin), List.length_drop]
        omega

/-! ### Claim theorems -/

/-- C5: For every word sequence, `CalculateEntropy` fails with
`UnsupportedStrength 0` when the word count is not in {12,15,18,21,24},
otherwise with `UnrecognizedWord w` for the first unrecognized word `w`,
otherwise compares the recomputed checksum with the trailing bits,
failing with `InvalidChecksum` on mismatch and returning the first
`strength` bits packed MSB-first into `strength / 8` bytes on success;
`IsValid`'s error channel has the same precedence.  Stated as equality
with the specification-side pipelines. -/
theorem c5_decode_error_precedence (c : Crypto) (m : mnemonicer) (words : List GoStr) :
    CalculateEntropy c m words = calcEntropySpec c m words ∧
    IsValid c m words = isValidSpec c m words := by
  by_cases hsup : words.length = 12 ∨ words.length = 15 ∨ words.length = 18 ∨
      words.length = 21 ∨ words.length = 24
  · have hst : strengthSet (sentenceStrengths (words.length : Int)) :=
      sentenceStrengths_nat_mem hsup
    cases hfind : words.find? (fun w => (dictLookup m.words w).isNone) with
    | some w =>
      have hvw : m.validateWordsPrecense words = .error (.unrecognizedWord w) := by
        rw [validateWordsPrecense_eq, hfind]
      have hbb : m.buildBins (sentenceStrengths (words.length : Int)) words =
          .error (.unrecognizedWord w) := by
        unfold mnemonicer.buildBins
        rw [validateStrength_mem hst, hvw]
      constructor
      · unfold CalculateEntropy calcEntropySpec
        rw [if_pos hsup]
        simp only [hbb, hfind]
      · unfold IsValid isValidSpec
        rw [if_pos hsup]
        simp only [hbb, hfind]
    | none =>
      have hpres : ∀ w ∈ words, (dictLookup m.words w).isNone = false := by
        intro w hw
        have h1 := List.find?_eq_none.mp hfind w hw
        simp only [Bool.not_eq_true] at h1
        exact h1
      have hbb := buildBins_ok m (validateStrength_mem hst) hpres
      have hgel := bins_flatten_length_ge m words
      have hklen : ((words.map fun w =>
          intToBin ((dictLookup m.words w).getD 0) 11).flatten).length ≥
          sentenceStrengths (words.length : Int) := by
        have := strength_le_11mul hsup
        omega
      have htlen : (((words.map fun w =>
          intToBin ((dictLookup m.words w).getD 0) 11).flatten).take
          (sentenceStrengths (words.length : Int))).length =
          sentenceStrengths (words.length : Int) := by
        rw [List.length_take]
        omega
      have hent : binToBytes (((words.map fun w =>
          intToBin ((dictLookup m.words w).getD 0) 11).flatten).take
          (sentenceStrengths (words.length : Int))) =
          (chunkSplit (((words.map fun w =>
            intToBin ((dictLookup m.words w).getD 0) 11).flatten).take
            (sentenceStrengths (words.length : Int))) 8).map binVal := by
        apply binToBytes_eq_chunks (allBin_take _ (bins_flatten_allBin m words))
        rw [htlen]
        exact strength_dvd8 hst
      constructor
      · unfold CalculateEntropy calcEntropySpec
        rw [if_pos hsup]
        simp only [hbb, hfind, hent]
      · unfold IsValid isValidSpec
        rw [if_pos hsup]
        simp only [hbb, hfind, hent]
  · have hzero : sentenceStrengths (words.length : Int) = 0 :=
      sentenceStrengths_nat_not_mem hsup
    have hbb : m.buildBins (sentenceStrengths (words.length : Int)) words =
        .error (.unsupportedStrength 0) := by
      unfold mnemonicer.buildBins
      rw [hzero, validateStrength_zero]
    constructor
    · unfold CalculateEntropy calcEntropySpec
      rw [if_neg hsup]
      simp only [hbb]
    · unfold IsValid isValidSpec
      rw [if_neg hsup]
      simp only [hbb]

/-- C8: On every binary digit string, `binToBytes` coincides with the
specification's packing (full MSB-first bytes, final partial group
shifted into the high bits), returns exactly `ceil(n/8)` bytes, and in
particular `n/8` bytes when `n` is a multiple of 8. -/
theorem c8_bit_packing (s : GoStr) (hbin : allBin s = true) :
    binToBytes s = packBitsSpec s ∧
    (binToBytes s).length = (s.length + 7) / 8 ∧
    (8 ∣ s.length → (binToBytes s).length = s.length / 8) := by
  refine ⟨binToBytes_eq_packBitsSpec_aux s.length s (le_refl _) hbin,
    binToBytes_length_ceil s.length s (le_refl _) hbin, fun hdvd => ?_⟩
  rw [binToBytes_length_ceil s.length s (le_refl _) hbin]
  omega

/-- Witness for C8 at the concrete binary string "010". -/
theorem c8_bit_packing_witness :
    allBin [48, 49, 48] = true ∧
    (binToBytes [48, 49, 48] = packBitsSpec [48, 49, 48] ∧
      (binToBytes [48, 49, 48]).length = (([48, 49, 48] : GoStr).length + 7) / 8 ∧
      (8 ∣ ([48, 49, 48] : GoStr).length →
        (binToBytes [48, 49, 48]).length = ([48, 49, 48] : GoStr).length / 8)) :=
  ⟨by decide, c8_bit_packing [48, 49, 48] (by decide)⟩

theorem validateStrength_error {s : Nat} {e : Err} (h : validateStrength s = .error e) :
    e = .unsupportedStrength s := by
  unfold validateStrength at h
  split at h
  · exact absurd h (by simp)
  · injection h with h1
    exact h1.symm

/-- C1: For every valid `Generate` input (dictionary of 2048 pairwise
distinct words, per the data-model precondition), `IsValid` on the
generated word sequence returns `true` with no error, and
`CalculateEntropy` returns exactly the derived entropy bytes with no
error. -/
theorem c1_generate_isValid_roundtrip (c : Crypto) (hc : c.Good) (m : mnemonicer)
    (hlen : m.words.length = 2048) (hnd : m.words.Nodup)
    (identifier password passcode : GoStr) (size : Int)
    (hid : 2 ≤ identifier.length) (hpw : 12 ≤ password.length)
    (hpc : passcode.length = 6) (hnum : atoiOk passcode = true) (hsz : sizeSet size)
    (ws : List GoStr)
    (hgen : Generate c m identifier password passcode size = .ok ws) :
    IsValid c m ws = .ok true ∧
    CalculateEntropy c m ws =
      .ok (deriveEntropy c identifier password passcode size) := by
  rw [generate_eq c hc m identifier password passcode size (by omega) (by omega)
    hpc hnum hsz] at hgen
  injection hgen with hws
  subst hws
  rw [genWords_eq_encodeWords]
  exact encodeWords_roundtrip c hc m hlen hnd
    (deriveEntropy_lt c hc identifier password passcode size)
    (sentenceStrengths_mem hsz)
    (deriveEntropy_length c identifier password passcode size)

set_option maxRecDepth 100000 in
/-- Witness for C1 at concrete inputs ("ab", "aaaaaaaaaaaa", "012345",
12 words) over the zero crypto and the test dictionary. -/
theorem c1_generate_isValid_roundtrip_witness :
    IsValid zeroCrypto testM (List.replicate 12 ([0] : GoStr)) = .ok true ∧
    CalculateEntropy zeroCrypto testM (List.replicate 12 ([0] : GoStr)) =
      .ok (deriveEntropy zeroCrypto idW pwW pcW 12) :=
  c1_generate_isValid_roundtrip zeroCrypto zeroCrypto_good testM testM_length
    testM_nodup idW pwW pcW 12 (by decide) (by decide) (by decide) (by decide)
    (Or.inl rfl) (List.replicate 12 ([0] : GoStr)) (by rfl)

/-- C2: For every valid input, the derived entropy has `strength / 8`
bytes and byte `i` is the XOR of byte `i` of the PBKDF2-HMAC-SHA512
stream and byte `i` of the scrypt stream, both computed over the message
"{identifier}:{password}|{passcode}={wordCount}" with salt
"pwd" + password + "code" + passcode, 2^18 = 262144 iterations / cost,
r = 8, p = 1 and output length strength / 8. -/
theorem c2_entropy_derivation (c : Crypto) (identifier password passcode : GoStr)
    (size : Int) (_hsz : sizeSet size) :
    (deriveEntropy c identifier password passcode size).length =
      sentenceStrengths size / 8 ∧
    ∀ i, i < sentenceStrengths size / 8 →
      (deriveEntropy c identifier password passcode size).getD i 0 =
        Nat.xor
          ((c.pbkdf2Sha512
              (identifier ++ [58] ++ password ++ [124] ++ passcode ++ [61] ++ intToDec size)
              ([112, 119, 100] ++ password ++ [99, 111, 100, 101] ++ passcode)
              262144 (sentenceStrengths size / 8)).getD i 0)
          ((c.scryptCore
              (identifier ++ [58] ++ password ++ [124] ++ passcode ++ [61] ++ intToDec size)
              ([112, 119, 100] ++ password ++ [99, 111, 100, 101] ++ passcode)
              262144 8 1 (sentenceStrengths size / 8)).getD i 0) := by
  refine ⟨deriveEntropy_length c identifier password passcode size, fun i hi => ?_⟩
  rw [deriveEntropy_eq, getD_map_range hi]
  norm_num [buildInput, saltPwd, saltCode]

/-- Witness for C2 at concrete inputs. -/
theorem c2_entropy_derivation_witness :
    (deriveEntropy zeroCrypto idW pwW pcW 12).length = sentenceStrengths 12 / 8 ∧
    ∀ i, i < sentenceStrengths 12 / 8 →
      (deriveEntropy zeroCrypto idW pwW pcW 12).getD i 0 =
        Nat.xor
          ((zeroCrypto.pbkdf2Sha512
              (idW ++ [58] ++ pwW ++ [124] ++ pcW ++ [61] ++ intToDec 12)
              ([112, 119, 100] ++ pwW ++ [99, 111, 100, 101] ++ pcW)
              262144 (sentenceStrengths 12 / 8)).getD i 0)
          ((zeroCrypto.scryptCore
              (idW ++ [58] ++ pwW ++ [124] ++ pcW ++ [61] ++ intToDec 12)
              ([112, 119, 100] ++ pwW ++ [99, 111, 100, 101] ++ pcW)
              262144 8 1 (sentenceStrengths 12 / 8)).getD i 0) :=
  c2_entropy_derivation zeroCrypto idW pwW pcW 12 (Or.inl rfl)

/-- C3: For every valid generation, `Generate` succeeds with exactly the
word list described by the encoding: the entropy bytes are expanded to
bits MSB-first, the first `strength - prefixSize` bits are split into
`mnemonicLength - 1` consecutive 11-bit dictionary indices, the last
word's index is the remaining `prefixSize` entropy bits concatenated with
the checksum bits, and the result has exactly `mnemonicLength` words. -/
theorem c3_word_encoding (c : Crypto) (hc : c.Good) (m : mnemonicer)
    (identifier password passcode : GoStr) (size : Int)
    (hid : 2 ≤ identifier.length) (hpw : 12 ≤ password.length)
    (hpc : passcode.length = 6) (hnum : atoiOk passcode = true) (hsz : sizeSet size) :
    Generate c m identifier password passcode size =
      .ok (genWords c m identifier password passcode size) ∧
    (chunkSplit ((bytesToBin (deriveEntropy c identifier password passcode size)).take
        (sentenceStrengths size - (11 - sentenceStrengths size / 32))) 11).length =
      (sentenceStrengths size + sentenceStrengths size / 32) / 11 - 1 ∧
    (genWords c m identifier password passcode size).length =
      (sentenceStrengths size + sentenceStrengths size / 32) / 11 := by
  have hst := sentenceStrengths_mem hsz
  refine ⟨generate_eq c hc m identifier password passcode size (by omega) (by omega)
      hpc hnum hsz, ?_, ?_⟩
  · rw [chunkSplit_length, List.length_take,
      bins_length c hc identifier password passcode hsz]
    have h1 : min (sentenceStrengths size - (11 - sentenceStrengths size / 32))
        (sentenceStrengths size) =
        sentenceStrengths size - (11 - sentenceStrengths size / 32) := by
      omega
    rw [h1]
    exact strength_msize_sub hst
  · rw [genWords_eq_encodeWords]
    exact encodeWords_length c m
      (deriveEntropy_lt c hc identifier password passcode size) hst
      (deriveEntropy_length c identifier password passcode size)

/-- Witness for C3 at concrete inputs. -/
theorem c3_word_encoding_witness :
    Generate zeroCrypto testM idW pwW pcW 12 =
      .ok (genWords zeroCrypto testM idW pwW pcW 12) ∧
    (chunkSplit ((bytesToBin (deriveEntropy zeroCrypto idW pwW pcW 12)).take
        (sentenceStrengths 12 - (11 - sentenceStrengths 12 / 32))) 11).length =
      (sentenceStrengths 12 + sentenceStrengths 12 / 32) / 11 - 1 ∧
    (genWords zeroCrypto testM idW pwW pcW 12).length =
      (sentenceStrengths 12 + sentenceStrengths 12 / 32) / 11 :=
  c3_word_encoding zeroCrypto zeroCrypto_good testM idW pwW pcW 12
    (by decide) (by decide) (by decide) (by decide) (Or.inl rfl)

/-- C4: For every entropy byte sequence and sizeBits in {4..8}, the
checksum is the first sizeBits characters of the 8-character MSB-first
binary rendering of the first SHA-256 digest byte, and has length
exactly sizeBits (the rendering has length 8 and value the digest
byte). -/
theorem c4_checksum (c : Crypto) (hc : c.Good) (entropy : List Nat) (sizeBits : Nat)
    (hsz : 4 ≤ sizeBits ∧ sizeBits ≤ 8) :
    checksum c entropy sizeBits =
      (intToBin ((c.sha256 entropy).headD 0) 8).take sizeBits ∧
    (intToBin ((c.sha256 entropy).headD 0) 8).length = 8 ∧
    binVal (intToBin ((c.sha256 entropy).headD 0) 8) = (c.sha256 entropy).headD 0 ∧
    (checksum c entropy sizeBits).length = sizeBits :=
  ⟨rfl, intToBin_length (by decide) (sha256_headD_lt c hc entropy),
    intToBin_val _ _, (checksum_spec c hc entropy hsz.2).1⟩

/-- Witness for C4 at entropy [1, 2, 3] and sizeBits 4. -/
theorem c4_checksum_witness :
    checksum zeroCrypto [1, 2, 3] 4 =
      (intToBin ((zeroCrypto.sha256 [1, 2, 3]).headD 0) 8).take 4 ∧
    (intToBin ((zeroCrypto.sha256 [1, 2, 3]).headD 0) 8).length = 8 ∧
    binVal (intToBin ((zeroCrypto.sha256 [1, 2, 3]).headD 0) 8) =
      (zeroCrypto.sha256 [1, 2, 3]).headD 0 ∧
    (checksum zeroCrypto [1, 2, 3] 4).length = 4 :=
  c4_checksum zeroCrypto zeroCrypto_good [1, 2, 3] 4 (by decide)

set_option maxRecDepth 100000 in
/-- C6 counterexample: the passcode "+12345" has length 6 and contains
the non-digit "+" (byte 43), yet `Generate` does not fail with
`PasscodeNotNumeric` — Go's `strconv.Atoi` accepts a leading sign — and
in fact succeeds. -/
theorem c6_counterexample :
    pcSigned.length = 6 ∧ isGoDigit 43 = false ∧ 43 ∈ pcSigned ∧
    Generate zeroCrypto testM idW pwW pcSigned 12 ≠
      .error (.passcodeNotNumeric pcSigned) ∧
    (Generate zeroCrypto testM idW pwW pcSigned 12).isOk = true := by
  have hok : Generate zeroCrypto testM idW pwW pcSigned 12 =
      .ok (List.replicate 12 ([0] : GoStr)) := by rfl
  refine ⟨rfl, rfl, by decide, ?_, by rw [hok]; rfl⟩
  rw [hok]
  exact fun h => Except.noConfusion h

/-- C6 amended: with valid identifier and password lengths and a
length-6 passcode, `Generate` fails with `PasscodeNotNumeric` exactly
when Go decimal-integer parsing of the passcode fails (after an optional
leading "+" or "-" sign it is empty or contains a non-digit); a passcode
of six decimal digits always passes the numeric check. -/
theorem c6_passcode_numeric (c : Crypto) (m : mnemonicer)
    (identifier password passcode : GoStr) (size : Int)
    (hid : 2 ≤ identifier.length) (hpw : 12 ≤ password.length)
    (hpc : passcode.length = 6) :
    (Generate c m identifier password passcode size =
        .error (.passcodeNotNumeric passcode) ↔ atoiOk passcode = false) ∧
    (passcode.all isGoDigit = true → atoiOk passcode = true) := by
  constructor
  · constructor
    · intro hgen
      by_contra hfalse
      rw [Bool.not_eq_false] at hfalse
      unfold Generate at hgen
      rw [if_neg (by omega), if_neg (by omega), if_neg (by simp [hpc]),
        if_neg (by simp [hfalse])] at hgen
      rcases hvs : validateStrength (sentenceStrengths size) with e | u
      · have he := validateStrength_error hvs
        subst he
        simp only [hvs] at hgen
        injection hgen with h1
        exact Err.noConfusion h1
      · simp only [hvs] at hgen
        exact Except.noConfusion hgen
    · intro hfalse
      unfold Generate
      rw [if_neg (by omega), if_neg (by omega), if_neg (by simp [hpc]), if_pos hfalse]
  · intro hall
    cases hp : passcode with
    | nil => rw [hp] at hpc; exact absurd hpc (by decide)
    | cons ch rest =>
      rw [hp] at hall
      have hch : isGoDigit ch = true :=
        List.all_eq_true.mp hall ch (List.mem_cons_self _ _)
      have hb : 48 ≤ ch ∧ ch ≤ 57 := by
        unfold isGoDigit at hch
        simp at hch
        exact hch
      have h43 : ¬ ch = 43 := by omega
      have h45 : ¬ ch = 45 := by omega
      simp [atoiOk, h43, h45, hall]

/-- Witness for the amended C6 at the non-numeric passcode "abcdef". -/
theorem c6_passcode_numeric_witness :
    (Generate zeroCrypto testM idW pwW pcBad 12 =
        .error (.passcodeNotNumeric pcBad) ↔ atoiOk pcBad = false) ∧
    (pcBad.all isGoDigit = true → atoiOk pcBad = true) :=
  c6_passcode_numeric zeroCrypto testM idW pwW pcBad 12
    (by decide) (by decide) (by decide)

/-- C7: `Generate` checks identifier length, password length, passcode
length, passcode numericity and word-count support in this fixed order,
returning the error of the first failing check, and succeeds when all
pass. -/
theorem c7_validation_order (c : Crypto) (hc : c.Good) (m : mnemonicer)
    (identifier password passcode : GoStr) (size : Int) :
    Generate c m identifier password passcode size =
      if identifier.length < 2 then .error .identifierTooShort
      else if password.length < 12 then .error .passwordTooShort
      else if passcode.length ≠ 6 then .error .passcodeWrongLength
      else if atoiOk passcode = false then .error (.passcodeNotNumeric passcode)
      else if size = 12 ∨ size = 15 ∨ size = 18 ∨ size = 21 ∨ size = 24 then
        .ok (genWords c m identifier password passcode size)
      else .error (.unsupportedStrength 0) := by
  by_cases h1 : identifier.length < 2
  · rw [if_pos h1]
    unfold Generate
    rw [if_pos h1]
  · rw [if_neg h1]
    by_cases h2 : password.length < 12
    · rw [if_pos h2]
      unfold Generate
      rw [if_neg h1, if_pos h2]
    · rw [if_neg h2]
      by_cases h3 : passcode.length ≠ 6
      · rw [if_pos h3]
        unfold Generate
        rw [if_neg h1, if_neg h2, if_pos h3]
      · rw [if_neg h3]
        by_cases h4 : atoiOk passcode = false
        · rw [if_pos h4]
          unfold Generate
          rw [if_neg h1, if_neg h2, if_neg h3, if_pos h4]
        · rw [if_neg h4]
          by_cases h5 : size = 12 ∨ size = 15 ∨ size = 18 ∨ size = 21 ∨ size = 24
          · rw [if_pos h5]
            exact generate_eq c hc m identifier password passcode size h1 h2
              (by omega) (by rwa [Bool.not_eq_false] at h4) h5
          · rw [if_neg h5]
            unfold Generate
            rw [if_neg h1, if_neg h2, if_neg h3, if_neg h4]
            simp only [sentenceStrengths_not_mem h5, validateStrength_zero]

/-- Witness for C7 at a length-1 identifier. -/
theorem c7_validation_order_witness :
    Generate zeroCrypto testM [97] pwW pcW 12 =
      if ([97] : GoStr).length < 2 then .error .identifierTooShort
      else if pwW.length < 12 then .error .passwordTooShort
      else if pcW.length ≠ 6 then .error .passcodeWrongLength
      else if atoiOk pcW = false then .error (.passcodeNotNumeric pcW)
      else if (12 : Int) = 12 ∨ (12 : Int) = 15 ∨ (12 : Int) = 18 ∨ (12 : Int) = 21 ∨
          (12 : Int) = 24 then
        .ok (genWords zeroCrypto testM [97] pwW pcW 12)
      else .error (.unsupportedStrength 0) :=
  c7_validation_order zeroCrypto zeroCrypto_good testM [97] pwW pcW 12

/-- C9: `GenerateSeed` returns, with no error, exactly the 64-byte
PBKDF2-HMAC-SHA512 stretch of the sentence with salt "mnemonic" ++
passphrase and 2048 iterations; `GenerateSeed32` the 32-byte stretch
with 4096 iterations. -/
theorem c9_generate_seed (c : Crypto) (hc : c.Good) (m : mnemonicer)
    (sentence passphrase : GoStr) :
    GenerateSeed c m sentence passphrase =
      .ok (c.pbkdf2Sha512 sentence
        ([109, 110, 101, 109, 111, 110, 105, 99] ++ passphrase) 2048 64) ∧
    (c.pbkdf2Sha512 sentence ([109, 110, 101, 109, 111, 110, 105, 99] ++ passphrase)
        2048 64).length = 64 ∧
    GenerateSeed32 c m sentence passphrase =
      .ok (c.pbkdf2Sha512 sentence
        ([109, 110, 101, 109, 111, 110, 105, 99] ++ passphrase) 4096 32) ∧
    (c.pbkdf2Sha512 sentence ([109, 110, 101, 109, 111, 110, 105, 99] ++ passphrase)
        4096 32).length = 32 :=
  ⟨rfl, hc.pbkdf2_length _ _ _ _, rfl, hc.pbkdf2_length _ _ _ _⟩

/-- Witness for C9 at the empty sentence and empty passphrase. -/
theorem c9_generate_seed_witness :
    GenerateSeed zeroCrypto testM [] [] =
      .ok (zeroCrypto.pbkdf2Sha512 []
        ([109, 110, 101, 109, 111, 110, 105, 99] ++ []) 2048 64) ∧
    (zeroCrypto.pbkdf2Sha512 [] ([109, 110, 101, 109, 111, 110, 105, 99] ++ [])
        2048 64).length = 64 ∧
    GenerateSeed32 zeroCrypto testM [] [] =
      .ok (zeroCrypto.pbkdf2Sha512 []
        ([109, 110, 101, 109, 111, 110, 105, 99] ++ []) 4096 32) ∧
    (zeroCrypto.pbkdf2Sha512 [] ([109, 110, 101, 109, 111, 110, 105, 99] ++ [])
        4096 32).length = 32 :=
  c9_generate_seed zeroCrypto zeroCrypto_good testM [] []

/-- C10: the scrypt parameters used by `Generate` (N = 2^18, r = 8,
p = 1) always pass scrypt's validation, so the discarded error is nil,
both KDF streams have exactly strength/8 bytes, the derived entropy has
strength/8 bytes, and the XOR loop indices are in bounds for both
streams. -/
theorem c10_scrypt_discarded_error (c : Crypto) (hc : c.Good)
    (identifier password passcode : GoStr) (size : Int) (_hsz : sizeSet size) :
    scryptParamsOk (2 ^ 18) 8 1 = true ∧
    c.scrypt (buildInput identifier password passcode size)
        (saltPwd ++ password ++ saltCode ++ passcode) (2 ^ 18) 8 1
        (sentenceStrengths size / 8) =
      .ok (c.scryptCore (buildInput identifier password passcode size)
        (saltPwd ++ password ++ saltCode ++ passcode) (2 ^ 18) 8 1
        (sentenceStrengths size / 8)) ∧
    ((c.scrypt (buildInput identifier password passcode size)
        (saltPwd ++ password ++ saltCode ++ passcode) (2 ^ 18) 8 1
        (sentenceStrengths size / 8)).toOption.getD []).length =
      sentenceStrengths size / 8 ∧
    (c.pbkdf2Sha512 (buildInput identifier password passcode size)
        (saltPwd ++ password ++ saltCode ++ passcode) (2 ^ 18)
        (sentenceStrengths size / 8)).length = sentenceStrengths size / 8 ∧
    (deriveEntropy c identifier password passcode size).length =
      sentenceStrengths size / 8 ∧
    ∀ i, i < sentenceStrengths size / 8 →
      i < (c.pbkdf2Sha512 (buildInput identifier password passcode size)
        (saltPwd ++ password ++ saltCode ++ passcode) (2 ^ 18)
        (sentenceStrengths size / 8)).length ∧
      i < ((c.scrypt (buildInput identifier password passcode size)
        (saltPwd ++ password ++ saltCode ++ passcode) (2 ^ 18) 8 1
        (sentenceStrengths size / 8)).toOption.getD []).length := by
  have hscrypt : ((c.scrypt (buildInput identifier password passcode size)
      (saltPwd ++ password ++ saltCode ++ passcode) (2 ^ 18) 8 1
      (sentenceStrengths size / 8)).toOption.getD []).length =
      sentenceStrengths size / 8 := by
    rw [scrypt_ok]
    simp only [Except.toOption, Option.getD_some]
    exact hc.scrypt_length _ _ _ _ _ _
  refine ⟨scryptParams_valid, scrypt_ok c _ _ _, hscrypt,
    hc.pbkdf2_length _ _ _ _,
    deriveEntropy_length c identifier password passcode size, fun i hi => ?_⟩
  constructor
  · rw [hc.pbkdf2_length]
    exact hi
  · rw [hscrypt]
    exact hi

/-- Witness for C10 at concrete inputs. -/
theorem c10_scrypt_discarded_error_witness :
    scryptParamsOk (2 ^ 18) 8 1 = true ∧
    zeroCrypto.scrypt (buildInput idW pwW pcW 12)
        (saltPwd ++ pwW ++ saltCode ++ pcW) (2 ^ 18) 8 1
        (sentenceStrengths 12 / 8) =
      .ok (zeroCrypto.scryptCore (buildInput idW pwW pcW 12)
        (saltPwd ++ pwW ++ saltCode ++ pcW) (2 ^ 18) 8 1
        (sentenceStrengths 12 / 8)) ∧
    ((zeroCrypto.scrypt (buildInput idW pwW pcW 12)
        (saltPwd ++ pwW ++ saltCode ++ pcW) (2 ^ 18) 8 1
        (sentenceStrengths 12 / 8)).toOption.getD []).length =
      sentenceStrengths 12 / 8 ∧
    (zeroCrypto.pbkdf2Sha512 (buildInput idW pwW pcW 12)
        (saltPwd ++ pwW ++ saltCode ++ pcW) (2 ^ 18)
        (sentenceStrengths 12 / 8)).length = sentenceStrengths 12 / 8 ∧
    (deriveEntropy zeroCrypto idW pwW pcW 12).length = sentenceStrengths 12 / 8 ∧
    ∀ i, i < sentenceStrengths 12 / 8 →
      i < (zeroCrypto.pbkdf2Sha512 (buildInput idW pwW pcW 12)
        (saltPwd ++ pwW ++ saltCode ++ pcW) (2 ^ 18)
        (sentenceStrengths 12 / 8)).length ∧
      i < ((zeroCrypto.scrypt (buildInput idW pwW pcW 12)
        (saltPwd ++ pwW ++ saltCode ++ pcW) (2 ^ 18) 8 1
        (sentenceStrengths 12 / 8)).toOption.getD []).length :=
  c10_scrypt_discarded_error zeroCrypto zeroCrypto_good idW pwW pcW 12 (Or.inl rfl)

end Nomnemonic
